import Mathlib

/-!
Verification of the ssl_exporter metric derivation engine
(src/ssl_exporter.go) against its natural-language specification.

The Go source is shallowly embedded: pure functions become Lean
functions, the stateful Collect method becomes explicit state passing,
machine integers become Int or Nat, and fallible code returns Option or
Except.  Timestamps (Go time.Time values) are modelled as Int values
counting nanoseconds since the Go zero time (January 1, year 1 UTC), so
that IsZero corresponds to equality with 0, Before to the order on Int,
and After to its reverse.  float64 values (the scrape timeout) are
modelled as exact decimal numbers, a pair of an integer mantissa and a
count of fractional digits.
-/

namespace SSLExporter

/-- Certificate, the attributes of an x509.Certificate consumed by the
program: serial number (a big integer), issuer common name, subject
common name, DNS names, IP addresses (already rendered to strings, as
the code only uses them through net.IP.String), email addresses,
organizational units, and the not-before and not-after timestamps. -/
structure Cert where
  serialNumber : Int
  issuerCN : String
  subjectCN : String
  dnsNames : List String
  ipAddresses : List String
  emailAddresses : List String
  orgUnits : List String
  notBefore : Int
  notAfter : Int
deriving DecidableEq, Repr, Inhabited

/-- ConnectionState, the fields of tls.ConnectionState consumed by
Collect: the negotiated version number, the peer certificate chain and
the list of verified chains. -/
structure ConnectionState where
  version : Nat
  peerCertificates : List Cert
  verifiedChains : List (List Cert)
deriving DecidableEq, Repr, Inhabited

/-- Metric sample: the data MustNewConstMetric receives, a metric name
(from the Desc), the label name schema of the Desc, the label values
and the gauge value.  Gauge values in the program are either 0, 1 or a
whole number of seconds since the Unix epoch, so Int is an exact
model. -/
structure Sample where
  name : String
  labelNames : List String
  labelValues : List String
  value : Int
deriving DecidableEq, Repr

/-- The namespace constant of the source (the Go identifier is a Lean
keyword, hence the different name). -/
def nsGo : String := "ssl"

/-- prometheus.BuildFQName: joins the non-empty parts of namespace,
subsystem and name with underscores. -/
def buildFQName (ns sub name : String) : String :=
  if name == "" then ""
  else if ns != "" && sub != "" then ns ++ "_" ++ sub ++ "_" ++ name
  else if ns != "" then ns ++ "_" ++ name
  else if sub != "" then sub ++ "_" ++ name
  else name

/-- Metric name of the tlsConnectSuccess descriptor. -/
def tlsConnectSuccessName : String := buildFQName nsGo "" "tls_connect_success"

/-- Metric name of the tlsVersion descriptor. -/
def tlsVersionName : String := buildFQName nsGo "" "tls_version_info"

/-- Metric name of the proberType descriptor. -/
def proberTypeName : String := buildFQName nsGo "" "prober"

/-- Metric name of the notBefore descriptor. -/
def notBeforeName : String := buildFQName nsGo "" "cert_not_before"

/-- Metric name of the notAfter descriptor. -/
def notAfterName : String := buildFQName nsGo "" "cert_not_after"

/-- Metric name of the verifiedNotBefore descriptor. -/
def verifiedNotBeforeName : String := buildFQName nsGo "" "verified_cert_not_before"

/-- Metric name of the verifiedNotAfter descriptor, written exactly as
in the source, which spells the string verfied_cert_not_after. -/
def verifiedNotAfterName : String := buildFQName nsGo "" "verfied_cert_not_after"

/-- Label name schema shared by the notBefore and notAfter descriptors. -/
def certLabelNames : List String :=
  ["serial_no", "issuer_cn", "cn", "dnsnames", "ips", "emails", "ou"]

/-- Label name schema shared by the verifiedNotBefore and
verifiedNotAfter descriptors. -/
def verifiedLabelNames : List String := "chain_no" :: certLabelNames

/-- strings.Join: the empty list gives the empty string, otherwise the
first element followed by separator-element pairs. -/
def goJoin : List String → String → String
  | [], _ => ""
  | s :: rest, sep => rest.foldl (fun acc x => acc ++ sep ++ x) s

/-- getDNSNames from the source: a leading and trailing comma around
the joined DNS names, or the empty string when there are none. -/
def getDNSNames (c : Cert) : String :=
  if c.dnsNames.length > 0 then "," ++ goJoin c.dnsNames "," ++ "," else ""

/-- getEmailAddresses from the source. -/
def getEmailAddresses (c : Cert) : String :=
  if c.emailAddresses.length > 0 then "," ++ goJoin c.emailAddresses "," ++ "," else ""

/-- getIPAddresses from the source: builds the string by starting from
a comma and appending each rendered address followed by a comma. -/
def getIPAddresses (c : Cert) : String :=
  if c.ipAddresses.length > 0 then
    c.ipAddresses.foldl (fun acc ip => acc ++ ip ++ ",") ","
  else ""

/-- getOrganizationalUnits from the source. -/
def getOrganizationalUnits (c : Cert) : String :=
  if c.orgUnits.length > 0 then "," ++ goJoin c.orgUnits "," ++ "," else ""

/-- getTLSVersion from the source; 769 to 772 are the values of the
constants tls.VersionTLS10 to tls.VersionTLS13. -/
def getTLSVersion (v : Nat) : String :=
  if v == 769 then "TLS 1.0"
  else if v == 770 then "TLS 1.1"
  else if v == 771 then "TLS 1.2"
  else if v == 772 then "TLS 1.3"
  else "unknown"

/-!
Embedding of sort.Slice from the Go standard library (the quickSort
implementation that backed sort.Slice from Go 1.8 through Go 1.18, the
era of this repository).  The slice is a List, reads are getD with the
default element, and Swap is lswap.  Loops are structural recursions on
an explicit fuel argument; every fuel value passed by a caller is an
upper bound on the number of iterations the Go loop performs and the
loop condition is re-checked inside, so the embedding computes exactly
the Go result.  Indices passed to Swap are always in range in the Go
code (Swap would panic otherwise); the bounds test inside lswap makes
the Lean function total.
-/

section GoSort

variable {α : Type} [Inhabited α]

/-- Swap of two positions of a list; identity when a position is out of
range (unreachable in the embedded algorithm). -/
def lswap (l : List α) (i j : Nat) : List α :=
  if i < l.length ∧ j < l.length then
    (l.set i (l.getD j default)).set j (l.getD i default)
  else l

/-- Inner loop of insertionSort: moves the element at j down while it
is less than its left neighbour.  Fuel is j - a, so the loop stops at
the left edge a exactly as the Go condition j > a does. -/
def insInner (less : α → α → Bool) : Nat → List α → Nat → List α
  | 0, l, _ => l
  | f+1, l, j =>
    if less (l.getD j default) (l.getD (j-1) default) then
      insInner less f (lswap l j (j-1)) (j-1)
    else l

/-- Outer loop of insertionSort over i = a+1 to b-1. -/
def insOuter (less : α → α → Bool) (a : Nat) : Nat → List α → Nat → List α
  | 0, l, _ => l
  | f+1, l, i => insOuter less a f (insInner less (i - a) l i) (i+1)

/-- insertionSort from the Go sort package, on the range [a, b). -/
def insertionSortGo (less : α → α → Bool) (l : List α) (a b : Nat) : List α :=
  insOuter less a (b - (a+1)) l (a+1)

/-- The gap-6 ShellSort pass quickSort runs on ranges of at most 12
elements before the insertion sort: one sweep of i from a+6 to b-1,
swapping i with i-6 when out of order. -/
def shellPass6 (less : α → α → Bool) : Nat → List α → Nat → List α
  | 0, l, _ => l
  | f+1, l, i =>
    shellPass6 less f
      (if less (l.getD i default) (l.getD (i-6) default) then lswap l i (i-6) else l)
      (i+1)

/-- The branch of quickSort for ranges of at most 12 elements: the
gap-6 pass followed by an insertion sort, skipped entirely on ranges of
fewer than 2 elements. -/
def smallSortGo (less : α → α → Bool) (l : List α) (a b : Nat) : List α :=
  if b - a > 1 then insertionSortGo less (shellPass6 less (b - (a+6)) l (a+6)) a b
  else l

/-- medianOfThree from the Go sort package: leaves the median of the
three positions at m0. -/
def medianOfThree (less : α → α → Bool) (l : List α) (m1 m0 m2 : Nat) : List α :=
  let l1 := if less (l.getD m1 default) (l.getD m0 default) then lswap l m1 m0 else l
  if less (l1.getD m2 default) (l1.getD m1 default) then
    let la := lswap l1 m2 m1
    if less (la.getD m1 default) (la.getD m0 default) then lswap la m1 m0 else la
  else l1

/-- Scan loop of doPivot advancing a while a < c and the element at a
is less than the pivot. -/
def dpScanLess (less : α → α → Bool) (l : List α) (pivot c : Nat) : Nat → Nat → Nat
  | 0, a => a
  | f+1, a =>
    if a < c ∧ less (l.getD a default) (l.getD pivot default) then
      dpScanLess less l pivot c f (a+1)
    else a

/-- Scan loop of doPivot advancing b while b < c and the element at b
is not greater than the pivot. -/
def dpAdvB (less : α → α → Bool) (l : List α) (pivot c : Nat) : Nat → Nat → Nat
  | 0, b => b
  | f+1, b =>
    if b < c ∧ !less (l.getD pivot default) (l.getD b default) then
      dpAdvB less l pivot c f (b+1)
    else b

/-- Scan loop of doPivot retreating c while b < c and the element at
c-1 is greater than the pivot. -/
def dpAdvC (less : α → α → Bool) (l : List α) (pivot b : Nat) : Nat → Nat → Nat
  | 0, c => c
  | f+1, c =>
    if b < c ∧ less (l.getD pivot default) (l.getD (c-1) default) then
      dpAdvC less l pivot b f (c-1)
    else c

/-- Main partition loop of doPivot: scan b up, scan c down, swap b and
c-1 and continue until the indices meet.  The gap c - b shrinks by at
least two per continued iteration, so fuel c - b is an upper bound. -/
def dpMain (less : α → α → Bool) (pivot : Nat) : Nat → List α → Nat → Nat → List α × Nat × Nat
  | 0, l, b, c => (l, b, c)
  | f+1, l, b, c =>
    let b1 := dpAdvB less l pivot c (c - b) b
    let c1 := dpAdvC less l pivot b1 (c - b1) c
    if b1 ≥ c1 then (l, b1, c1)
    else dpMain less pivot f (lswap l b1 (c1 - 1)) (b1+1) (c1-1)

/-- Retreat loop of the duplicate-protection phase. -/
def dpProtAdvB (less : α → α → Bool) (l : List α) (pivot a : Nat) : Nat → Nat → Nat
  | 0, b => b
  | f+1, b =>
    if a < b ∧ !less (l.getD (b-1) default) (l.getD pivot default) then
      dpProtAdvB less l pivot a f (b-1)
    else b

/-- Advance loop of the duplicate-protection phase. -/
def dpProtAdvA (less : α → α → Bool) (l : List α) (pivot b : Nat) : Nat → Nat → Nat
  | 0, a => a
  | f+1, a =>
    if a < b ∧ less (l.getD a default) (l.getD pivot default) then
      dpProtAdvA less l pivot b f (a+1)
    else a

/-- Duplicate-protection loop of doPivot. -/
def dpProtect (less : α → α → Bool) (pivot : Nat) : Nat → List α → Nat → Nat → List α × Nat × Nat
  | 0, l, a, b => (l, a, b)
  | f+1, l, a, b =>
    let b1 := dpProtAdvB less l pivot a (b - a) b
    let a1 := dpProtAdvA less l pivot b1 (b1 - a) a
    if a1 ≥ b1 then (l, a1, b1)
    else dpProtect less pivot f (lswap l a1 (b1-1)) (a1+1) (b1-1)

/-- Pivot selection phase of doPivot: the ninther of the range when it
is longer than 40, then median-of-three, leaving the chosen pivot at
lo. -/
def doPivotSetup (less : α → α → Bool) (l : List α) (lo hi m : Nat) : List α :=
  let l0 :=
    if hi - lo > 40 then
      let s := (hi - lo) / 8
      medianOfThree less
        (medianOfThree less
          (medianOfThree less l lo (lo+s) (lo+2*s))
          m (m-s) (m+s))
        (hi-1) (hi-1-s) (hi-1-2*s)
    else l
  medianOfThree less l0 lo m (hi-1)

/-- Duplicate-test phase of doPivot: probes three positions for
equality with the pivot and decides whether to run the protection
loop; returns the list, the updated b and c, and the protect flag. -/
def doPivotDups (less : α → α → Bool) (l2 : List α) (lo m pivot hi b1 c1 : Nat) :
    List α × Nat × Nat × Bool :=
  let protect0 : Bool := decide (hi - c1 < 5)
  if !protect0 && decide (hi - c1 < (hi - lo) / 4) then
    let step1 :=
      if !less (l2.getD pivot default) (l2.getD (hi-1) default) then
        (lswap l2 c1 (hi-1), c1+1, 1)
      else (l2, c1, 0)
    let l3a := step1.1
    let c2a := step1.2.1
    let d1 := step1.2.2
    let step2 :=
      if !less (l3a.getD (b1-1) default) (l3a.getD pivot default) then
        (b1-1, d1+1)
      else (b1, d1)
    let b2a := step2.1
    let d2 := step2.2
    if !less (l3a.getD m default) (l3a.getD pivot default) then
      (lswap l3a m (b2a-1), b2a-1, c2a, decide (d2+1 > 1))
    else (l3a, b2a, c2a, decide (d2 > 1))
  else (l2, b1, c1, protect0)

/-- doPivot from the Go sort package: pivot selection, three-way
partition of [lo, hi) around the pivot, the duplicate-protection pass
and the final swap of the pivot into the middle; returns the list
together with midlo and midhi. -/
def doPivot (less : α → α → Bool) (l : List α) (lo hi : Nat) : List α × Nat × Nat :=
  let m := (lo + hi) / 2
  let pivot := lo
  let l1 := doPivotSetup less l lo hi m
  let a0 := dpScanLess less l1 pivot (hi-1) ((hi-1) - (lo+1)) (lo+1)
  let mainRes := dpMain less pivot ((hi-1) - a0) l1 a0 (hi-1)
  let l2 := mainRes.1
  let b1 := mainRes.2.1
  let c1 := mainRes.2.2
  let dupsRes := doPivotDups less l2 lo m pivot hi b1 c1
  let l3 := dupsRes.1
  let b2 := dupsRes.2.1
  let c2 := dupsRes.2.2.1
  let protect := dupsRes.2.2.2
  let protRes := if protect then dpProtect less pivot (b2 - a0) l3 a0 b2 else (l3, a0, b2)
  let l4 := protRes.1
  let b3 := protRes.2.2
  (lswap l4 pivot (b3 - 1), b3 - 1, c2)

/-- siftDown from the Go sort package heap phase. -/
def siftDown (less : α → α → Bool) (first hi : Nat) : Nat → List α → Nat → List α
  | 0, l, _ => l
  | f+1, l, root =>
    let child0 := 2*root + 1
    if child0 ≥ hi then l
    else
      let child :=
        if child0 + 1 < hi ∧ less (l.getD (first+child0) default) (l.getD (first+child0+1) default)
        then child0 + 1 else child0
      if !less (l.getD (first+root) default) (l.getD (first+child) default) then l
      else siftDown less first hi f (lswap l (first+root) (first+child)) child

/-- Heap construction loop of heapSort, i counting down from
(hi-1)/2. -/
def heapBuild (less : α → α → Bool) (first hi : Nat) : Nat → List α → Nat → List α
  | 0, l, _ => l
  | f+1, l, i => heapBuild less first hi f (siftDown less first hi hi l i) (i-1)

/-- Pop loop of heapSort, i counting down from hi - 1. -/
def heapPop (less : α → α → Bool) (first : Nat) : Nat → List α → Nat → List α
  | 0, l, _ => l
  | f+1, l, i =>
    heapPop less first f (siftDown less first i i (lswap l first (first+i)) 0) (i-1)

/-- heapSort from the Go sort package, on the range [a, b). -/
def heapSortGo (less : α → α → Bool) (l : List α) (a b : Nat) : List α :=
  let hi := b - a
  heapPop less a hi (heapBuild less a hi ((hi-1)/2 + 1) l ((hi-1)/2)) (hi - 1)

/-- quickSort from the Go sort package: partition while more than 12
elements remain and depth is left, falling back to heapSort at depth 0
and to the shell-insertion small sort on short ranges. -/
def goQuickSort (less : α → α → Bool) : Nat → List α → Nat → Nat → List α
  | 0, l, a, b =>
    if b - a > 12 then heapSortGo less l a b else smallSortGo less l a b
  | d+1, l, a, b =>
    if b - a > 12 then
      match doPivot less l a b with
      | (l1, mlo, mhi) =>
        if mlo - a < b - mhi then
          goQuickSort less d (goQuickSort less d l1 a mlo) mhi b
        else
          goQuickSort less d (goQuickSort less d l1 mhi b) a mlo
    else smallSortGo less l a b

/-- The loop computing maxDepth in sort.Sort: counts the bits of n.
Fuel n dominates the iteration count. -/
def depthLoop : Nat → Nat → Nat
  | 0, _ => 0
  | f+1, i => if i > 0 then depthLoop f (i / 2) + 1 else 0

/-- maxDepth from the Go sort package: 2 * ceil(lg(n+1)). -/
def maxDepthGo (n : Nat) : Nat := 2 * depthLoop n n

/-- sort.Slice: quickSort over the whole list with the computed depth
budget. -/
def goSortSlice (less : α → α → Bool) (l : List α) : List α :=
  goQuickSort less (maxDepthGo l.length) l 0 l.length

end GoSort

/-- The effective expiry computation inlined in the sort.Slice
comparator of Collect: the running minimum over the chain of the
non-zero not-after times, starting from the zero time. -/
def chainExpiry (chain : List Cert) : Int :=
  chain.foldl
    (fun expiry c =>
      if (expiry = 0 ∨ c.notAfter < expiry) ∧ c.notAfter ≠ 0 then c.notAfter else expiry)
    0

/-- The comparator passed to sort.Slice in Collect: chain i comes
before chain j when the effective expiry of i is after that of j. -/
def chainLess (ci cj : List Cert) : Bool := decide (chainExpiry cj < chainExpiry ci)

/-- The sort.Slice call of Collect applied to the verified chains. -/
def sortChains (chains : List (List Cert)) : List (List Cert) :=
  goSortSlice chainLess chains

/-- contains from the source: scans the list for a certificate with the
same decimal serial number rendering and the same issuer common name. -/
def contains : List Cert → Cert → Bool
  | [], _ => false
  | c :: cs, cert =>
    if (toString c.serialNumber == toString cert.serialNumber)
        && (c.issuerCN == cert.issuerCN) then true
    else contains cs cert

/-- Loop body of uniq from the source: the accumulator r collects the
certificates kept so far, in order. -/
def uniqLoop (r : List Cert) : List Cert → List Cert
  | [] => r
  | c :: cs => if contains r c then uniqLoop r cs else uniqLoop (r ++ [c]) cs

/-- uniq from the source: drops every certificate whose serial number
string and issuer common name match an earlier kept one. -/
def uniq (certs : List Cert) : List Cert := uniqLoop [] certs

/-- Nanoseconds between the Go zero time (January 1, year 1 UTC) and
the Unix epoch: 62135596800 seconds. -/
def unixEpochNanos : Int := 62135596800000000000

/-- The value expression of the certificate timestamp metrics:
float64(t.UnixNano() / 1e9), an int64 division truncating toward
zero. -/
def certTimeValue (t : Int) : Int := Int.tdiv (t - unixEpochNanos) 1000000000

/-- The sample always sent first by Collect, naming the prober. -/
def proberSample (p : String) : Sample := ⟨proberTypeName, ["prober"], [p], 1⟩

/-- The tls_version_info sample for a connection state. -/
def versionSample (st : ConnectionState) : Sample :=
  ⟨tlsVersionName, ["version"], [getTLSVersion st.version], 1⟩

/-- The tls_connect_success sample. -/
def successSample (v : Int) : Sample := ⟨tlsConnectSuccessName, [], [], v⟩

/-- Label values sent with every certificate metric, in the order of
the MustNewConstMetric calls. -/
def certLabelValues (c : Cert) : List String :=
  [toString c.serialNumber, c.issuerCN, c.subjectCN, getDNSNames c,
   getIPAddresses c, getEmailAddresses c, getOrganizationalUnits c]

/-- The samples of one peer certificate: a cert_not_after sample when
the not-after time is non-zero, then a cert_not_before sample when the
not-before time is non-zero. -/
def certSamplesFor (c : Cert) : List Sample :=
  (if c.notAfter ≠ 0 then
    [⟨notAfterName, certLabelNames, certLabelValues c, certTimeValue c.notAfter⟩]
  else [])
  ++
  (if c.notBefore ≠ 0 then
    [⟨notBeforeName, certLabelNames, certLabelValues c, certTimeValue c.notBefore⟩]
  else [])

/-- The peer-certificate loop of Collect. -/
def peerCertSamples (certs : List Cert) : List Sample :=
  certs.flatMap certSamplesFor

/-- The samples of one certificate of verified chain number i. -/
def verifiedSamplesFor (i : Nat) (c : Cert) : List Sample :=
  (if c.notAfter ≠ 0 then
    [⟨verifiedNotAfterName, verifiedLabelNames, toString i :: certLabelValues c,
      certTimeValue c.notAfter⟩]
  else [])
  ++
  (if c.notBefore ≠ 0 then
    [⟨verifiedNotBeforeName, verifiedLabelNames, toString i :: certLabelValues c,
      certTimeValue c.notBefore⟩]
  else [])

/-- The verified-chain loop of Collect: each chain is deduplicated and
labelled with its index in the sorted order. -/
def verifiedChainSamples (chains : List (List Cert)) : List Sample :=
  chains.enum.flatMap (fun p => (uniq p.2).flatMap (verifiedSamplesFor p.1))

/-- Collect from the source, as explicit state passing.  The input is
the probe result; the outputs are the samples sent on the channel, in
order, and the connection state as it is left behind: sort.Slice
permutes the backing array of state.VerifiedChains in place, while
uniq builds fresh slices, so only the verifiedChains field changes and
only on the path that reaches the sort. -/
def collect (proberName : String) (res : Except Unit ConnectionState) :
    List Sample × Except Unit ConnectionState :=
  match res with
  | .error e => ([proberSample proberName, successSample 0], .error e)
  | .ok st =>
    if st.peerCertificates.length < 1 then
      ([proberSample proberName, versionSample st, successSample 0], .ok st)
    else
      let sorted := sortChains st.verifiedChains
      ([proberSample proberName, versionSample st, successSample 1]
        ++ peerCertSamples (uniq st.peerCertificates)
        ++ verifiedChainSamples sorted,
       .ok { st with verifiedChains := sorted })

/-!
Embedding of probeHandler.  The pieces of the HTTP request the handler
reads are the module and target query parameters and the scrape
timeout header; Get on a URL query or a header returns the empty
string when the key is absent, so absence is the empty string here
too.  The handler either fails with an HTTP status and message before
any probing happens, or reaches the point where it builds the Exporter
whose Collect method runs the derivation engine; the embedding returns
the Exporter fields in the success case, so an error result is exactly
a request on which the engine is never invoked.
-/

/-- Module from the config package: only the Prober field is read by
the handler. -/
structure Module where
  prober : String
deriving DecidableEq, Repr

/-- Configuration: the named modules. -/
structure Config where
  modules : List (String × Module)
deriving DecidableEq, Repr

/-- The request data probeHandler reads. -/
structure Request where
  moduleParam : String
  targetParam : String
  timeoutHeader : String
deriving DecidableEq, Repr

/-- An http.Error response: status code and message. -/
structure HttpError where
  status : Nat
  message : String
deriving DecidableEq, Repr

/-- The fields of the Exporter that probeHandler registers on success;
timeoutNs is the time.Duration value in nanoseconds. -/
structure ExporterParams where
  target : String
  proberName : String
  timeoutNs : Int
  module : Module
deriving DecidableEq, Repr

/-- An exact decimal number, mantissa times ten to the minus
fracDigits: the model of the float64 values strconv.ParseFloat
produces for plain decimal input. -/
structure Dec where
  mantissa : Int
  fracDigits : Nat
deriving DecidableEq, Repr

/-- Splits a character list at a single dot; none when more than one
dot occurs. -/
def splitDot : List Char → Option (List Char × List Char)
  | [] => some ([], [])
  | '.' :: t => if t.contains '.' then none else some ([], t)
  | c :: t =>
    match splitDot t with
    | none => none
    | some (a, b) => some (c :: a, b)

/-- Digit list to natural number. -/
def digitsVal (ds : List Char) : Nat :=
  ds.foldl (fun a c => a * 10 + (c.toNat - 48)) 0

/-- Model of strconv.ParseFloat restricted to plain decimal numerals:
an optional sign, digits, and at most one dot, with at least one digit
overall.  The exponent, hexadecimal, infinity and NaN forms accepted by
the real function are not modelled; the program behaviour proved here
only depends on the decimal fragment and on rejection of malformed
input such as a non-numeric string. -/
def parseGoFloat (s : String) : Option Dec :=
  match s.toList with
  | [] => none
  | cs =>
    let signed : Int × List Char :=
      match cs with
      | '+' :: t => (1, t)
      | '-' :: t => (-1, t)
      | t => (1, t)
    match splitDot signed.2 with
    | none => none
    | some (ip, fp) =>
      if (ip ++ fp).all Char.isDigit ∧ (ip ++ fp) ≠ [] then
        some ⟨signed.1 * (digitsVal (ip ++ fp) : Int), fp.length⟩
      else none

/-- The conversion time.Duration(timeoutSeconds * 1e9): the exact
rational value truncated toward zero to an integer count of
nanoseconds, as the float64 to int64 conversion does. -/
def durationOfSeconds (d : Dec) : Int :=
  Int.tdiv (d.mantissa * 1000000000) ((10:Int) ^ d.fracDigits)

/-- The rendering of a Go %q verb for the strings at hand (plain names
without characters needing escapes). -/
def goQuote (s : String) : String := "\"" ++ s ++ "\""

/-- The text of the strconv.NumError returned by ParseFloat on
malformed input. -/
def parseFloatErrText (v : String) : String :=
  "strconv.ParseFloat: parsing " ++ goQuote v ++ ": invalid syntax"

/-- Module name resolution of probeHandler: the module query parameter,
or tcp when it is absent. -/
def moduleNameOf (r : Request) : String :=
  if r.moduleParam == "" then "tcp" else r.moduleParam

/-- probeHandler from the source: module lookup (default module name
tcp), timeout header parsing with the 10 second default for an absent
header or a zero value, target check, prober lookup, and construction
of the Exporter.  Statuses: 400 is http.StatusBadRequest, 500 is
http.StatusInternalServerError, as written at each http.Error call. -/
def probeHandler (conf : Config) (proberKeys : List String) (r : Request) :
    Except HttpError ExporterParams :=
  let moduleName := moduleNameOf r
  match conf.modules.lookup moduleName with
  | none => .error ⟨400, "Unknown module " ++ goQuote moduleName⟩
  | some m =>
    let tsRes : Except HttpError Dec :=
      if r.timeoutHeader == "" then .ok ⟨10, 0⟩
      else
        match parseGoFloat r.timeoutHeader with
        | none =>
          .error ⟨500, "Failed to parse timeout from Prometheus header: "
            ++ parseFloatErrText r.timeoutHeader⟩
        | some v => .ok v
    match tsRes with
    | .error e => .error e
    | .ok ts0 =>
      let ts := if ts0.mantissa = 0 then (⟨10, 0⟩ : Dec) else ts0
      let timeout := durationOfSeconds ts
      if r.targetParam == "" then .error ⟨400, "Target parameter is missing"⟩
      else if proberKeys.contains m.prober then
        .ok ⟨r.targetParam, m.prober, timeout, m⟩
      else .error ⟨400, "Unknown prober " ++ goQuote m.prober⟩

/-- Status of a handler result, 200 on the success path (the metrics
response). -/
def respStatus (x : Except HttpError ExporterParams) : Nat :=
  match x with
  | .error e => e.status
  | .ok _ => 200

/-- A 4xx HTTP status. -/
def Is4xx (n : Nat) : Prop := 400 ≤ n ∧ n ≤ 499

instance (n : Nat) : Decidable (Is4xx n) := by
  unfold Is4xx
  infer_instance

/-!
Specification-side definitions, used to compare the embedded code with
the wording of the spec.
-/

/-- Certificate Identity Key from the spec: the pair of the serial
number rendered as a decimal string and the issuer common name. -/
def identityKey (c : Cert) : String × String := (toString c.serialNumber, c.issuerCN)

/-- Dedup as worded by the spec: walking the input left to right, a
certificate is kept exactly when no certificate earlier in the input
(kept or dropped) has the same Identity Key; pre is the prefix already
walked. -/
def specDedupAux (pre : List Cert) : List Cert → List Cert
  | [] => []
  | c :: cs =>
    if pre.any (fun p => decide (identityKey p = identityKey c)) then
      specDedupAux (pre ++ [c]) cs
    else c :: specDedupAux (pre ++ [c]) cs

/-- Deduplicate as worded by the spec: first occurrence of each
distinct Identity Key, in original order. -/
def specDedup (xs : List Cert) : List Cert := specDedupAux [] xs

/-- A join by the delimiter as worded by the spec for the label
strings. -/
def delimJoin : List String → String
  | [] => ""
  | [x] => x
  | x :: y :: t => x ++ "," ++ delimJoin (y :: t)

/-!
Permutation lemmas: every mutation the embedded sort performs goes
through lswap, so each phase returns a permutation of its input.
-/

theorem consSetPerm {α : Type} (d a : α) :
    ∀ (t : List α) (m : Nat), m < t.length →
      List.Perm (t.getD m d :: t.set m a) (a :: t) := by
  intro t
  induction t with
  | nil => intro m hm; simp at hm
  | cons b s ih =>
    intro m hm
    cases m with
    | zero => simpa using List.Perm.swap a b s
    | succ k =>
      have hk : k < s.length := by simpa using hm
      have h1 : List.Perm (s.getD k d :: b :: s.set k a) (b :: s.getD k d :: s.set k a) :=
        List.Perm.swap _ _ _
      have h2 : List.Perm (b :: s.getD k d :: s.set k a) (b :: a :: s) :=
        List.Perm.cons b (ih k hk)
      have h3 : List.Perm (b :: a :: s) (a :: b :: s) := List.Perm.swap _ _ _
      simpa using (h1.trans h2).trans h3

theorem setSetPerm {α : Type} (d : α) :
    ∀ (l : List α) (i j : Nat), i < l.length → j < l.length →
      List.Perm ((l.set i (l.getD j d)).set j (l.getD i d)) l := by
  intro l
  induction l with
  | nil => intro i j hi _; simp at hi
  | cons a t ih =>
    intro i j hi hj
    cases i with
    | zero =>
      cases j with
      | zero => simp
      | succ m =>
        have hm : m < t.length := by simpa using hj
        simpa using consSetPerm d a t m hm
    | succ n =>
      have hn : n < t.length := by simpa using hi
      cases j with
      | zero => simpa using consSetPerm d a t n hn
      | succ m =>
        have hm : m < t.length := by simpa using hj
        simpa using List.Perm.cons a (ih n m hn hm)

theorem lswap_perm {α : Type} [Inhabited α] (l : List α) (i j : Nat) :
    List.Perm (lswap l i j) l := by
  unfold lswap
  split
  · rename_i h
    exact setSetPerm default l i j h.1 h.2
  · exact List.Perm.refl l

theorem insInner_perm {α : Type} [Inhabited α] (less : α → α → Bool) :
    ∀ (f : Nat) (l : List α) (j : Nat), List.Perm (insInner less f l j) l := by
  intro f
  induction f with
  | zero => intro l j; exact List.Perm.refl l
  | succ f ih =>
    intro l j
    unfold insInner
    split
    · exact (ih _ _).trans (lswap_perm l j (j-1))
    · exact List.Perm.refl l

theorem insOuter_perm {α : Type} [Inhabited α] (less : α → α → Bool) (a : Nat) :
    ∀ (f : Nat) (l : List α) (i : Nat), List.Perm (insOuter less a f l i) l := by
  intro f
  induction f with
  | zero => intro l i; exact List.Perm.refl l
  | succ f ih =>
    intro l i
    unfold insOuter
    exact (ih _ _).trans (insInner_perm less (i - a) l i)

theorem insertionSortGo_perm {α : Type} [Inhabited α] (less : α → α → Bool)
    (l : List α) (a b : Nat) : List.Perm (insertionSortGo less l a b) l :=
  insOuter_perm less a _ l (a+1)

theorem shellPass6_perm {α : Type} [Inhabited α] (less : α → α → Bool) :
    ∀ (f : Nat) (l : List α) (i : Nat), List.Perm (shellPass6 less f l i) l := by
  intro f
  induction f with
  | zero => intro l i; exact List.Perm.refl l
  | succ f ih =>
    intro l i
    unfold shellPass6
    split
    · exact (ih _ _).trans (lswap_perm l i (i-6))
    · exact ih _ _

theorem smallSortGo_perm {α : Type} [Inhabited α] (less : α → α → Bool)
    (l : List α) (a b : Nat) : List.Perm (smallSortGo less l a b) l := by
  unfold smallSortGo
  split
  · exact (insertionSortGo_perm less _ a b).trans (shellPass6_perm less _ l (a+6))
  · exact List.Perm.refl l

theorem medianOfThree_perm {α : Type} [Inhabited α] (less : α → α → Bool)
    (l : List α) (m1 m0 m2 : Nat) : List.Perm (medianOfThree less l m1 m0 m2) l := by
  unfold medianOfThree
  simp only []
  split <;> split
  · split
    · exact ((lswap_perm _ _ _).trans (lswap_perm _ _ _)).trans (lswap_perm _ _ _)
    · exact (lswap_perm _ _ _).trans (lswap_perm _ _ _)
  · exact lswap_perm _ _ _
  · split
    · exact (lswap_perm _ _ _).trans (lswap_perm _ _ _)
    · exact lswap_perm _ _ _
  · exact List.Perm.refl l

theorem dpMain_perm {α : Type} [Inhabited α] (less : α → α → Bool) (pivot : Nat) :
    ∀ (f : Nat) (l : List α) (b c : Nat),
      List.Perm (dpMain less pivot f l b c).1 l := by
  intro f
  induction f with
  | zero => intro l b c; exact List.Perm.refl l
  | succ f ih =>
    intro l b c
    unfold dpMain
    simp only []
    split
    · exact List.Perm.refl l
    · exact (ih _ _ _).trans (lswap_perm _ _ _)

theorem dpProtect_perm {α : Type} [Inhabited α] (less : α → α → Bool) (pivot : Nat) :
    ∀ (f : Nat) (l : List α) (a b : Nat),
      List.Perm (dpProtect less pivot f l a b).1 l := by
  intro f
  induction f with
  | zero => intro l a b; exact List.Perm.refl l
  | succ f ih =>
    intro l a b
    unfold dpProtect
    simp only []
    split
    · exact List.Perm.refl l
    · exact (ih _ _ _).trans (lswap_perm _ _ _)

theorem doPivotSetup_perm {α : Type} [Inhabited α] (less : α → α → Bool)
    (l : List α) (lo hi m : Nat) : List.Perm (doPivotSetup less l lo hi m) l := by
  unfold doPivotSetup
  dsimp only
  split
  · exact (medianOfThree_perm less _ _ _ _).trans
      (((medianOfThree_perm less _ _ _ _).trans
        ((medianOfThree_perm less _ _ _ _).trans (medianOfThree_perm less _ _ _ _))))
  · exact medianOfThree_perm less _ _ _ _

theorem doPivotDups_perm {α : Type} [Inhabited α] (less : α → α → Bool)
    (l2 : List α) (lo m pivot hi b1 c1 : Nat) :
    List.Perm (doPivotDups less l2 lo m pivot hi b1 c1).1 l2 := by
  unfold doPivotDups
  dsimp only
  split
  · split
    · split
      · exact (lswap_perm _ _ _).trans (lswap_perm _ _ _)
      · exact lswap_perm _ _ _
    · split
      · exact (lswap_perm _ _ _).trans (List.Perm.refl _)
      · exact List.Perm.refl _
  · exact List.Perm.refl _

theorem doPivot_perm {α : Type} [Inhabited α] (less : α → α → Bool)
    (l : List α) (lo hi : Nat) : List.Perm (doPivot less l lo hi).1 l := by
  unfold doPivot
  dsimp only
  split
  · exact (lswap_perm _ _ _).trans
      ((dpProtect_perm less _ _ _ _ _).trans
        ((doPivotDups_perm less _ _ _ _ _ _ _).trans
          ((dpMain_perm less _ _ _ _ _).trans (doPivotSetup_perm less l lo hi _))))
  · exact (lswap_perm _ _ _).trans
      ((doPivotDups_perm less _ _ _ _ _ _ _).trans
        ((dpMain_perm less _ _ _ _ _).trans (doPivotSetup_perm less l lo hi _)))

theorem siftDown_perm {α : Type} [Inhabited α] (less : α → α → Bool) (first hi : Nat) :
    ∀ (f : Nat) (l : List α) (root : Nat), List.Perm (siftDown less first hi f l root) l := by
  intro f
  induction f with
  | zero => intro l root; exact List.Perm.refl l
  | succ f ih =>
    intro l root
    unfold siftDown
    dsimp only
    split
    · exact List.Perm.refl l
    · split <;> split
      · exact List.Perm.refl l
      · exact (ih _ _).trans (lswap_perm _ _ _)
      · exact List.Perm.refl l
      · exact (ih _ _).trans (lswap_perm _ _ _)

theorem heapBuild_perm {α : Type} [Inhabited α] (less : α → α → Bool) (first hi : Nat) :
    ∀ (f : Nat) (l : List α) (i : Nat), List.Perm (heapBuild less first hi f l i) l := by
  intro f
  induction f with
  | zero => intro l i; exact List.Perm.refl l
  | succ f ih =>
    intro l i
    unfold heapBuild
    exact (ih _ _).trans (siftDown_perm less first hi hi l i)

theorem heapPop_perm {α : Type} [Inhabited α] (less : α → α → Bool) (first : Nat) :
    ∀ (f : Nat) (l : List α) (i : Nat), List.Perm (heapPop less first f l i) l := by
  intro f
  induction f with
  | zero => intro l i; exact List.Perm.refl l
  | succ f ih =>
    intro l i
    unfold heapPop
    exact (ih _ _).trans ((siftDown_perm less first i i _ 0).trans (lswap_perm _ _ _))

theorem heapSortGo_perm {α : Type} [Inhabited α] (less : α → α → Bool)
    (l : List α) (a b : Nat) : List.Perm (heapSortGo less l a b) l := by
  unfold heapSortGo
  exact (heapPop_perm less a _ _ _).trans (heapBuild_perm less a (b-a) _ l _)

theorem goQuickSort_perm {α : Type} [Inhabited α] (less : α → α → Bool) :
    ∀ (d : Nat) (l : List α) (a b : Nat), List.Perm (goQuickSort less d l a b) l := by
  intro d
  induction d with
  | zero =>
    intro l a b
    unfold goQuickSort
    split
    · exact heapSortGo_perm less l a b
    · exact smallSortGo_perm less l a b
  | succ d ih =>
    intro l a b
    unfold goQuickSort
    split
    · rcases h : doPivot less l a b with ⟨l1, mlo, mhi⟩
      have hperm : List.Perm l1 l := by
        have hp := doPivot_perm less l a b
        rw [h] at hp
        exact hp
      simp only []
      split
      · exact (ih _ _ _).trans ((ih _ _ _).trans hperm)
      · exact (ih _ _ _).trans ((ih _ _ _).trans hperm)
    · exact smallSortGo_perm less l a b

theorem goSortSlice_perm {α : Type} [Inhabited α] (less : α → α → Bool)
    (l : List α) : List.Perm (goSortSlice less l) l :=
  goQuickSort_perm less _ l 0 l.length

theorem sortChains_perm (chains : List (List Cert)) :
    List.Perm (sortChains chains) chains :=
  goSortSlice_perm chainLess chains

/-!
Sortedness of the embedded sort.  The comparator of Collect ranks
chains by a key, the effective expiry, largest key first.  The lemmas
below prove that the embedded Go quickSort leaves any list sorted for
any comparator of this key form, covering every phase: the partition,
including its median selection and duplicate protection, the
shell-insertion small sort, and the heapSort fallback reached when the
depth budget runs out.
-/

section SortCorrect

variable {α : Type} [Inhabited α]

/-- The key-based comparator family: the element with the larger key
comes first. -/
def lessK (k : α → Int) (a b : α) : Bool := decide (k b < k a)

theorem chainLess_eq_lessK : chainLess = lessK chainExpiry := rfl

/-- Every key of the positions of [a, b) of l satisfies P. -/
def RangeAll (k : α → Int) (P : Int → Prop) (l : List α) (a b : Nat) : Prop :=
  ∀ i, a ≤ i → i < b → P (k (l.getD i default))

/-- The keys are non-increasing across the positions of [a, b) of l. -/
def RangeSorted (k : α → Int) (l : List α) (a b : Nat) : Prop :=
  ∀ i j, a ≤ i → i < j → j < b → k (l.getD j default) ≤ k (l.getD i default)

/-- The lists agree at every position outside [a, b). -/
def EqOutside (l l' : List α) (a b : Nat) : Prop :=
  ∀ p, p < a ∨ b ≤ p → l'.getD p default = l.getD p default

theorem lessK_true_iff (k : α → Int) (a b : α) : lessK k a b = true ↔ k b < k a := by
  simp [lessK]

theorem lessK_false_iff (k : α → Int) (a b : α) : lessK k a b = false ↔ k a ≤ k b := by
  simp [lessK]

theorem getD_set_self (l : List α) (i : Nat) (x : α) (h : i < l.length) :
    (l.set i x).getD i default = x := by
  rw [List.getD_eq_getElem _ _ (by simpa using h), List.getElem_set]
  simp

theorem getD_set_ne (l : List α) {i p : Nat} (x : α) (h : i ≠ p) :
    (l.set i x).getD p default = l.getD p default := by
  simp [List.getD_eq_getElem?_getD, List.getElem?_set, h]

theorem lswap_length (l : List α) (i j : Nat) : (lswap l i j).length = l.length := by
  unfold lswap
  split <;> simp

theorem lswap_getD_left (l : List α) {i j : Nat} (hi : i < l.length) (hj : j < l.length) :
    (lswap l i j).getD i default = l.getD j default := by
  unfold lswap
  rw [if_pos ⟨hi, hj⟩]
  by_cases hij : j = i
  · subst hij
    rw [getD_set_self _ _ _ (by simpa using hi)]
  · rw [getD_set_ne _ _ hij, getD_set_self _ _ _ hi]

theorem lswap_getD_right (l : List α) {i j : Nat} (hi : i < l.length) (hj : j < l.length) :
    (lswap l i j).getD j default = l.getD i default := by
  unfold lswap
  rw [if_pos ⟨hi, hj⟩]
  rw [getD_set_self _ _ _ (by simpa using hj)]

theorem lswap_getD_other (l : List α) {i j p : Nat} (h1 : p ≠ i) (h2 : p ≠ j) :
    (lswap l i j).getD p default = l.getD p default := by
  unfold lswap
  split
  · rw [getD_set_ne _ _ (Ne.symm h2), getD_set_ne _ _ (Ne.symm h1)]
  · rfl

theorem eqOutside_refl (l : List α) (a b : Nat) : EqOutside l l a b :=
  fun _ _ => rfl

theorem eqOutside_trans {l1 l2 l3 : List α} {a b : Nat}
    (h1 : EqOutside l1 l2 a b) (h2 : EqOutside l2 l3 a b) : EqOutside l1 l3 a b :=
  fun p hp => (h2 p hp).trans (h1 p hp)

theorem eqOutside_widen {l l' : List α} {a b a' b' : Nat}
    (h : EqOutside l l' a b) (ha : a' ≤ a) (hb : b ≤ b') : EqOutside l l' a' b' := by
  intro p hp
  apply h
  rcases hp with hp | hp
  · exact Or.inl (lt_of_lt_of_le hp ha)
  · exact Or.inr (le_trans hb hp)

theorem lswap_eqOutside (l : List α) {i j a b : Nat}
    (hia : a ≤ i) (hib : i < b) (hja : a ≤ j) (hjb : j < b) :
    EqOutside l (lswap l i j) a b := by
  intro p hp
  have hpi : p ≠ i := by omega
  have hpj : p ≠ j := by omega
  exact lswap_getD_other l hpi hpj

theorem rangeAll_mono {k : α → Int} {P : Int → Prop} {l : List α} {a b a' b' : Nat}
    (h : RangeAll k P l a b) (ha : a ≤ a') (hb : b' ≤ b) : RangeAll k P l a' b' :=
  fun i h1 h2 => h i (le_trans ha h1) (lt_of_lt_of_le h2 hb)

theorem rangeAll_imp {k : α → Int} {P Q : Int → Prop} {l : List α} {a b : Nat}
    (h : RangeAll k P l a b) (himp : ∀ x, P x → Q x) : RangeAll k Q l a b :=
  fun i h1 h2 => himp _ (h i h1 h2)

theorem rangeSorted_mono {k : α → Int} {l : List α} {a b a' b' : Nat}
    (h : RangeSorted k l a b) (ha : a ≤ a') (hb : b' ≤ b) : RangeSorted k l a' b' :=
  fun i j h1 h2 h3 => h i j (le_trans ha h1) h2 (lt_of_lt_of_le h3 hb)

theorem rangeSorted_trivial (k : α → Int) (l : List α) {a b : Nat} (h : b ≤ a + 1) :
    RangeSorted k l a b := by
  intro i j h1 h2 h3
  exact absurd h2 (by omega)

theorem rangeAll_of_eqOutside {k : α → Int} {P : Int → Prop} {l l' : List α}
    {A B a b : Nat} (heq : EqOutside l l' A B) (hdisj : b ≤ A ∨ B ≤ a)
    (h : RangeAll k P l a b) : RangeAll k P l' a b := by
  intro i h1 h2
  rw [heq i (by omega)]
  exact h i h1 h2

theorem rangeSorted_of_eqOutside {k : α → Int} {l l' : List α} {A B a b : Nat}
    (heq : EqOutside l l' A B) (hdisj : b ≤ A ∨ B ≤ a)
    (h : RangeSorted k l a b) : RangeSorted k l' a b := by
  intro i j h1 h2 h3
  rw [heq i (by omega), heq j (by omega)]
  exact h i j h1 h2 h3

theorem rangeSorted_glue {k : α → Int} {l : List α} {a m b : Nat}
    (h1 : RangeSorted k l a m) (h2 : RangeSorted k l m b)
    (cross : ∀ i j, a ≤ i → i < m → m ≤ j → j < b →
      k (l.getD j default) ≤ k (l.getD i default)) :
    RangeSorted k l a b := by
  intro i j hi hij hj
  by_cases hjm : j < m
  · exact h1 i j hi hij hjm
  · by_cases him : m ≤ i
    · exact h2 i j him hij hj
    · exact cross i j hi (by omega) (by omega) hj

theorem listEq_of_getD {l1 l2 : List α} (hlen : l1.length = l2.length)
    (h : ∀ i, i < l1.length → l1.getD i default = l2.getD i default) : l1 = l2 := by
  apply List.ext_getElem hlen
  intro n h1 h2
  have hx := h n h1
  rwa [List.getD_eq_getElem _ _ h1, List.getD_eq_getElem _ _ h2] at hx

/-- A phase that permutes the list while leaving everything outside
[a, b) in place can only rearrange the values inside [a, b); any
property of all the keys of that range is kept. -/
theorem rangePreserve {k : α → Int} {P : Int → Prop} {l l' : List α} {a b : Nat}
    (hperm : List.Perm l' l) (hout : EqOutside l l' a b)
    (hb : b ≤ l.length) (hab : a ≤ b)
    (h : RangeAll k P l a b) : RangeAll k P l' a b := by
  have hlen : l'.length = l.length := hperm.length_eq
  have htake : l'.take a = l.take a := by
    apply List.ext_getElem (by simp [hlen])
    intro n h1 h2
    have hn : n < a := by simp at h1; omega
    have hnl : n < l.length := by omega
    have hx := hout n (Or.inl hn)
    rw [List.getD_eq_getElem _ _ (by omega), List.getD_eq_getElem _ _ hnl] at hx
    rw [List.getElem_take, List.getElem_take]
    exact hx
  have hdrop : l'.drop b = l.drop b := by
    apply List.ext_getElem (by simp [hlen])
    intro n h1 h2
    have hnl : b + n < l.length := by simp at h2; omega
    have hx := hout (b + n) (Or.inr (by omega))
    rw [List.getD_eq_getElem _ _ (by omega), List.getD_eq_getElem _ _ hnl] at hx
    rw [List.getElem_drop, List.getElem_drop]
    exact hx
  have hdd : (l.drop a).drop (b - a) = l.drop b := by
    rw [List.drop_drop]
    congr 1
    omega
  have hdd' : (l'.drop a).drop (b - a) = l'.drop b := by
    rw [List.drop_drop]
    congr 1
    omega
  have hdecomp : l.take a ++ ((l.drop a).take (b - a) ++ l.drop b) = l := by
    rw [← hdd, List.take_append_drop, List.take_append_drop]
  have hdecomp' : l'.take a ++ ((l'.drop a).take (b - a) ++ l'.drop b) = l' := by
    rw [← hdd', List.take_append_drop, List.take_append_drop]
  have key : List.Perm
      (l.take a ++ ((l'.drop a).take (b - a) ++ l.drop b))
      (l.take a ++ ((l.drop a).take (b - a) ++ l.drop b)) := by
    have e1 : l.take a ++ ((l'.drop a).take (b - a) ++ l.drop b) = l' := by
      rw [← htake, ← hdrop]
      exact hdecomp'
    rw [e1, hdecomp]
    exact hperm
  have hSS : List.Perm ((l'.drop a).take (b - a)) ((l.drop a).take (b - a)) :=
    (List.perm_append_right_iff _).mp ((List.perm_append_left_iff _).mp key)
  intro i hia hib
  have hiL : i < l'.length := by omega
  have hS'len : ((l'.drop a).take (b - a)).length = b - a := by
    simp [hlen]
    omega
  have hia2 : i - a < ((l'.drop a).take (b - a)).length := by omega
  have hval : l'.getD i default = ((l'.drop a).take (b - a))[i - a] := by
    rw [List.getD_eq_getElem _ _ hiL, List.getElem_take, List.getElem_drop]
    congr 1
    omega
  have hmem : ((l'.drop a).take (b - a))[i - a] ∈ (l.drop a).take (b - a) :=
    hSS.subset (List.getElem_mem hia2)
  rcases List.mem_iff_getElem.mp hmem with ⟨q, hq, hqe⟩
  have hSlen : ((l.drop a).take (b - a)).length = b - a := by
    simp
    omega
  have hq2 : q < b - a := by omega
  have hql : a + q < l.length := by omega
  have hqv : ((l.drop a).take (b - a))[q] = l.getD (a + q) default := by
    rw [List.getD_eq_getElem _ _ hql, List.getElem_take, List.getElem_drop]
  have hP := h (a + q) (by omega) (by omega)
  rw [hval, ← hqe, hqv]
  exact hP

/-- Inner loop of the insertion sort: with [a, j) sorted, [j, m+1)
sorted, and the bridge inequality between the neighbours of position
j, bubbling the element at j leftwards sorts all of [a, m+1). -/
theorem insInner_spec (k : α → Int) (a m : Nat) :
    ∀ (f : Nat) (l : List α) (j : Nat),
      j = a + f → j ≤ m → m < l.length →
      RangeSorted k l a j →
      RangeSorted k l j (m+1) →
      (a < j → j + 1 ≤ m → k (l.getD (j+1) default) ≤ k (l.getD (j-1) default)) →
      RangeSorted k (insInner (lessK k) f l j) a (m+1)
      ∧ EqOutside l (insInner (lessK k) f l j) a (m+1)
      ∧ (insInner (lessK k) f l j).length = l.length := by
  intro f
  induction f with
  | zero =>
    intro l j hj _ _ _ h2 _
    refine ⟨?_, eqOutside_refl l a (m+1), rfl⟩
    have hja : j = a := by omega
    subst hja
    exact h2
  | succ f ih =>
    intro l j hj hjm hm h1 h2 hbridge
    have hja : a < j := by omega
    rw [insInner]
    split
    · rename_i hcond
      rw [lessK_true_iff] at hcond
      set l2 := lswap l j (j-1) with hl2
      have hjl : j < l.length := by omega
      have hj1l : j - 1 < l.length := by omega
      have g1 : l2.getD j default = l.getD (j-1) default := by
        rw [hl2]
        exact lswap_getD_left l hjl hj1l
      have g2 : l2.getD (j-1) default = l.getD j default := by
        rw [hl2]
        exact lswap_getD_right l hjl hj1l
      have gother : ∀ p, p ≠ j → p ≠ j - 1 → l2.getD p default = l.getD p default := by
        intro p hp1 hp2
        rw [hl2]
        exact lswap_getD_other l hp1 hp2
      have hlen2 : l2.length = l.length := by
        rw [hl2]
        exact lswap_length l _ _
      have r1 : RangeSorted k l2 a (j-1) := by
        intro p q hp hpq hq
        rw [gother p (by omega) (by omega), gother q (by omega) (by omega)]
        exact h1 p q hp hpq (by omega)
      have r2 : RangeSorted k l2 (j-1) (m+1) := by
        intro p q hp hpq hq
        by_cases hpj1 : p = j - 1
        · subst hpj1
          rw [g2]
          by_cases hqj : q = j
          · subst hqj
            rw [g1]
            exact le_of_lt hcond
          · rw [gother q hqj (by omega)]
            exact h2 j q (by omega) (by omega) hq
        · by_cases hpj : p = j
          · rw [hpj, g1]
            rw [gother q (by omega) (by omega)]
            by_cases hq2 : q = j + 1
            · subst hq2
              exact hbridge hja (by omega)
            · have t1 : k (l.getD q default) ≤ k (l.getD (j+1) default) :=
                h2 (j+1) q (by omega) (by omega) hq
              exact le_trans t1 (hbridge hja (by omega))
          · rw [gother p hpj hpj1, gother q (by omega) (by omega)]
            exact h2 p q (by omega) hpq hq
      have r3 : a < j - 1 → (j-1) + 1 ≤ m →
          k (l2.getD ((j-1)+1) default) ≤ k (l2.getD ((j-1)-1) default) := by
        intro haj1 hjm1
        have e1 : (j-1)+1 = j := by omega
        rw [e1, g1, gother (j-1-1) (by omega) (by omega)]
        exact h1 (j-1-1) (j-1) (by omega) (by omega) (by omega)
      obtain ⟨s1, s2, s3⟩ := ih l2 (j-1) (by omega) (by omega) (by rw [hlen2]; exact hm)
        r1 r2 r3
      refine ⟨s1, ?_, by rw [s3, hlen2]⟩
      have e1 : EqOutside l l2 a (m+1) := by
        rw [hl2]
        exact lswap_eqOutside l (by omega) (by omega) (by omega) (by omega)
      exact eqOutside_trans e1 s2
    · rename_i hcond
      rw [Bool.not_eq_true, lessK_false_iff] at hcond
      refine ⟨?_, eqOutside_refl l a (m+1), rfl⟩
      apply rangeSorted_glue h1 h2
      intro i q hi hij hjq hq
      have t1 : k (l.getD q default) ≤ k (l.getD j default) := by
        by_cases hqj : q = j
        · subst hqj
          exact le_refl _
        · exact h2 j q (by omega) (by omega) hq
      have t2 : k (l.getD j default) ≤ k (l.getD (j-1) default) := hcond
      have t3 : k (l.getD (j-1) default) ≤ k (l.getD i default) := by
        by_cases hij1 : i = j - 1
        · subst hij1
          exact le_refl _
        · exact h1 i (j-1) hi (by omega) (by omega)
      exact le_trans t1 (le_trans t2 t3)

/-- Outer loop of the insertion sort: extends a sorted prefix [a, i)
one position at a time up to b. -/
theorem insOuter_spec (k : α → Int) (a b : Nat) :
    ∀ (f : Nat) (l : List α) (i : Nat),
      i + f = b → a < i → b ≤ l.length →
      RangeSorted k l a i →
      RangeSorted k (insOuter (lessK k) a f l i) a b
      ∧ EqOutside l (insOuter (lessK k) a f l i) a b
      ∧ (insOuter (lessK k) a f l i).length = l.length := by
  intro f
  induction f with
  | zero =>
    intro l i hib _ _ hsort
    have hie : i = b := by omega
    subst hie
    exact ⟨hsort, eqOutside_refl l a i, rfl⟩
  | succ f ih =>
    intro l i hib hai hbl hsort
    rw [insOuter]
    obtain ⟨t1, t2, t3⟩ := insInner_spec k a i (i - a) l i (by omega) (le_refl i)
      (by omega) hsort (rangeSorted_trivial k l (le_refl (i+1)))
      (by intro _ h2; omega)
    obtain ⟨s1, s2, s3⟩ := ih (insInner (lessK k) (i-a) l i) (i+1) (by omega) (by omega)
      (by rw [t3]; exact hbl) (rangeSorted_mono t1 (le_refl a) (by omega))
    refine ⟨s1, ?_, by rw [s3, t3]⟩
    exact eqOutside_trans (eqOutside_widen t2 (le_refl a) (by omega)) s2

/-- insertionSort sorts the range [a, b), touching nothing outside. -/
theorem insertionSortGo_spec (k : α → Int) (l : List α) (a b : Nat) (hb : b ≤ l.length) :
    RangeSorted k (insertionSortGo (lessK k) l a b) a b
    ∧ EqOutside l (insertionSortGo (lessK k) l a b) a b
    ∧ (insertionSortGo (lessK k) l a b).length = l.length := by
  unfold insertionSortGo
  by_cases hab : b ≤ a + 1
  · have h0 : b - (a+1) = 0 := by omega
    rw [h0]
    exact ⟨rangeSorted_trivial k l hab, eqOutside_refl l a b, rfl⟩
  · exact insOuter_spec k a b (b - (a+1)) l (a+1) (by omega) (by omega) hb
      (rangeSorted_trivial k l (le_refl (a+1)))

/-- The gap-6 shell pass only rearranges positions inside [a, b). -/
theorem shellPass6_frame (less : α → α → Bool) (a b : Nat) :
    ∀ (f : Nat) (l : List α) (i : Nat),
      a + 6 ≤ i → i + f ≤ b →
      EqOutside l (shellPass6 less f l i) a b
      ∧ (shellPass6 less f l i).length = l.length := by
  intro f
  induction f with
  | zero =>
    intro l i _ _
    exact ⟨eqOutside_refl l a b, rfl⟩
  | succ f ih =>
    intro l i hai hib
    rw [shellPass6]
    set l2 := if less (l.getD i default) (l.getD (i-6) default) then lswap l i (i-6) else l
      with hl2
    have h2 : EqOutside l l2 a b ∧ l2.length = l.length := by
      rw [hl2]
      split
      · exact ⟨lswap_eqOutside l (by omega) (by omega) (by omega) (by omega),
          lswap_length l _ _⟩
      · exact ⟨eqOutside_refl l a b, rfl⟩
    obtain ⟨s1, s2⟩ := ih l2 (i+1) (by omega) (by omega)
    exact ⟨eqOutside_trans h2.1 s1, by rw [s2, h2.2]⟩

/-- The small sort (shell pass then insertion sort) sorts [a, b). -/
theorem smallSortGo_spec (k : α → Int) (l : List α) (a b : Nat) (hb : b ≤ l.length) :
    RangeSorted k (smallSortGo (lessK k) l a b) a b
    ∧ EqOutside l (smallSortGo (lessK k) l a b) a b
    ∧ (smallSortGo (lessK k) l a b).length = l.length := by
  unfold smallSortGo
  split
  · by_cases h6 : a + 6 ≤ b
    · obtain ⟨f1, f2⟩ := shellPass6_frame (lessK k) a b (b - (a+6)) l (a+6)
        (le_refl _) (by omega)
      obtain ⟨s1, s2, s3⟩ := insertionSortGo_spec k
        (shellPass6 (lessK k) (b - (a+6)) l (a+6)) a b (by rw [f2]; exact hb)
      exact ⟨s1, eqOutside_trans f1 s2, by rw [s3, f2]⟩
    · have h0 : b - (a+6) = 0 := by omega
      rw [h0]
      exact insertionSortGo_spec k l a b hb
  · rename_i hba
    exact ⟨rangeSorted_trivial k l (by omega), eqOutside_refl l a b, rfl⟩

/-- First scan of doPivot: advances over the keys above the pivot key. -/
theorem dpScanLess_spec (k : α → Int) (l : List α) (pivot c : Nat) :
    ∀ (f a0 : Nat), a0 ≤ c → c - a0 ≤ f →
      a0 ≤ dpScanLess (lessK k) l pivot c f a0
      ∧ dpScanLess (lessK k) l pivot c f a0 ≤ c
      ∧ (∀ p, a0 ≤ p → p < dpScanLess (lessK k) l pivot c f a0 →
          k (l.getD pivot default) < k (l.getD p default))
      ∧ (dpScanLess (lessK k) l pivot c f a0 < c →
          k (l.getD (dpScanLess (lessK k) l pivot c f a0) default)
            ≤ k (l.getD pivot default)) := by
  intro f
  induction f with
  | zero =>
    intro a0 hac hf
    rw [dpScanLess]
    refine ⟨le_refl _, hac, ?_, ?_⟩
    · intro p h1 h2
      exact absurd h2 (by omega)
    · intro h
      exact absurd h (by omega)
  | succ f ih =>
    intro a0 hac hf
    rw [dpScanLess]
    split
    · rename_i hcond
      obtain ⟨h1, h2⟩ := hcond
      rw [lessK_true_iff] at h2
      obtain ⟨s1, s2, s3, s4⟩ := ih (a0+1) (by omega) (by omega)
      refine ⟨by omega, s2, ?_, s4⟩
      intro p hp1 hp2
      by_cases hpa : p = a0
      · rw [hpa]
        exact h2
      · exact s3 p (by omega) hp2
    · rename_i hcond
      refine ⟨le_refl _, hac, ?_, ?_⟩
      · intro p h1 h2
        exact absurd h2 (by omega)
      · intro hlt
        have h2 : ¬ (lessK k (l.getD a0 default) (l.getD pivot default) = true) := by
          intro hx
          exact hcond ⟨hlt, hx⟩
        rw [Bool.not_eq_true, lessK_false_iff] at h2
        exact h2

/-- The b-scan of the main partition loop: advances over keys at or
above the pivot key. -/
theorem dpAdvB_spec (k : α → Int) (l : List α) (pivot c : Nat) :
    ∀ (f b0 : Nat), b0 ≤ c → c - b0 ≤ f →
      b0 ≤ dpAdvB (lessK k) l pivot c f b0
      ∧ dpAdvB (lessK k) l pivot c f b0 ≤ c
      ∧ (∀ p, b0 ≤ p → p < dpAdvB (lessK k) l pivot c f b0 →
          k (l.getD pivot default) ≤ k (l.getD p default))
      ∧ (dpAdvB (lessK k) l pivot c f b0 < c →
          k (l.getD (dpAdvB (lessK k) l pivot c f b0) default)
            < k (l.getD pivot default)) := by
  intro f
  induction f with
  | zero =>
    intro b0 hbc hf
    rw [dpAdvB]
    refine ⟨le_refl _, hbc, ?_, ?_⟩
    · intro p h1 h2
      exact absurd h2 (by omega)
    · intro h
      exact absurd h (by omega)
  | succ f ih =>
    intro b0 hbc hf
    rw [dpAdvB]
    split
    · rename_i hcond
      obtain ⟨h1, h2⟩ := hcond
      rw [Bool.not_eq_eq_eq_not, Bool.not_true, lessK_false_iff] at h2
      obtain ⟨s1, s2, s3, s4⟩ := ih (b0+1) (by omega) (by omega)
      refine ⟨by omega, s2, ?_, s4⟩
      intro p hp1 hp2
      by_cases hpb : p = b0
      · rw [hpb]
        exact h2
      · exact s3 p (by omega) hp2
    · rename_i hcond
      refine ⟨le_refl _, hbc, ?_, ?_⟩
      · intro p h1 h2
        exact absurd h2 (by omega)
      · intro hlt
        have h2 : ¬ ((!lessK k (l.getD pivot default) (l.getD b0 default)) = true) := by
          intro hx
          exact hcond ⟨hlt, hx⟩
        rw [Bool.not_eq_true, Bool.not_eq_false', lessK_true_iff] at h2
        exact h2

/-- The c-scan of the main partition loop: retreats over keys strictly
below the pivot key. -/
theorem dpAdvC_spec (k : α → Int) (l : List α) (pivot b : Nat) :
    ∀ (f c0 : Nat), b ≤ c0 → c0 - b ≤ f →
      b ≤ dpAdvC (lessK k) l pivot b f c0
      ∧ dpAdvC (lessK k) l pivot b f c0 ≤ c0
      ∧ (∀ p, dpAdvC (lessK k) l pivot b f c0 ≤ p → p < c0 →
          k (l.getD p default) < k (l.getD pivot default))
      ∧ (b < dpAdvC (lessK k) l pivot b f c0 →
          k (l.getD pivot default)
            ≤ k (l.getD (dpAdvC (lessK k) l pivot b f c0 - 1) default)) := by
  intro f
  induction f with
  | zero =>
    intro c0 hbc hf
    rw [dpAdvC]
    refine ⟨hbc, le_refl _, ?_, ?_⟩
    · intro p h1 h2
      exact absurd h2 (by omega)
    · intro h
      exact absurd h (by omega)
  | succ f ih =>
    intro c0 hbc hf
    rw [dpAdvC]
    split
    · rename_i hcond
      obtain ⟨h1, h2⟩ := hcond
      rw [lessK_true_iff] at h2
      obtain ⟨s1, s2, s3, s4⟩ := ih (c0-1) (by omega) (by omega)
      refine ⟨s1, by omega, ?_, s4⟩
      intro p hp1 hp2
      by_cases hpc : p = c0 - 1
      · rw [hpc]
        exact h2
      · exact s3 p hp1 (by omega)
    · rename_i hcond
      refine ⟨hbc, le_refl _, ?_, ?_⟩
      · intro p h1 h2
        exact absurd h2 (by omega)
      · intro hlt
        have h2 : ¬ (lessK k (l.getD pivot default) (l.getD (c0-1) default) = true) := by
          intro hx
          exact hcond ⟨hlt, hx⟩
        rw [Bool.not_eq_true, lessK_false_iff] at h2
        exact h2

/-- The b-scan of the protection loop: retreats over keys at or below
the pivot key. -/
theorem dpProtAdvB_spec (k : α → Int) (l : List α) (pivot a : Nat) :
    ∀ (f b0 : Nat), a ≤ b0 → b0 - a ≤ f →
      a ≤ dpProtAdvB (lessK k) l pivot a f b0
      ∧ dpProtAdvB (lessK k) l pivot a f b0 ≤ b0
      ∧ (∀ p, dpProtAdvB (lessK k) l pivot a f b0 ≤ p → p < b0 →
          k (l.getD p default) ≤ k (l.getD pivot default))
      ∧ (a < dpProtAdvB (lessK k) l pivot a f b0 →
          k (l.getD pivot default)
            < k (l.getD (dpProtAdvB (lessK k) l pivot a f b0 - 1) default)) := by
  intro f
  induction f with
  | zero =>
    intro b0 hab hf
    rw [dpProtAdvB]
    refine ⟨hab, le_refl _, ?_, ?_⟩
    · intro p h1 h2
      exact absurd h2 (by omega)
    · intro h
      exact absurd h (by omega)
  | succ f ih =>
    intro b0 hab hf
    rw [dpProtAdvB]
    split
    · rename_i hcond
      obtain ⟨h1, h2⟩ := hcond
      rw [Bool.not_eq_eq_eq_not, Bool.not_true, lessK_false_iff] at h2
      obtain ⟨s1, s2, s3, s4⟩ := ih (b0-1) (by omega) (by omega)
      refine ⟨s1, by omega, ?_, s4⟩
      intro p hp1 hp2
      by_cases hpb : p = b0 - 1
      · rw [hpb]
        exact h2
      · exact s3 p hp1 (by omega)
    · rename_i hcond
      refine ⟨hab, le_refl _, ?_, ?_⟩
      · intro p h1 h2
        exact absurd h2 (by omega)
      · intro hlt
        have h2 : ¬ ((!lessK k (l.getD (b0-1) default) (l.getD pivot default)) = true) := by
          intro hx
          exact hcond ⟨hlt, hx⟩
        rw [Bool.not_eq_true, Bool.not_eq_false', lessK_true_iff] at h2
        exact h2

/-- The a-scan of the protection loop: advances over keys strictly
above the pivot key. -/
theorem dpProtAdvA_spec (k : α → Int) (l : List α) (pivot b : Nat) :
    ∀ (f a0 : Nat), a0 ≤ b → b - a0 ≤ f →
      a0 ≤ dpProtAdvA (lessK k) l pivot b f a0
      ∧ dpProtAdvA (lessK k) l pivot b f a0 ≤ b
      ∧ (∀ p, a0 ≤ p → p < dpProtAdvA (lessK k) l pivot b f a0 →
          k (l.getD pivot default) < k (l.getD p default))
      ∧ (dpProtAdvA (lessK k) l pivot b f a0 < b →
          k (l.getD (dpProtAdvA (lessK k) l pivot b f a0) default)
            ≤ k (l.getD pivot default)) := by
  intro f
  induction f with
  | zero =>
    intro a0 hab hf
    rw [dpProtAdvA]
    refine ⟨le_refl _, hab, ?_, ?_⟩
    · intro p h1 h2
      exact absurd h2 (by omega)
    · intro h
      exact absurd h (by omega)
  | succ f ih =>
    intro a0 hab hf
    rw [dpProtAdvA]
    split
    · rename_i hcond
      obtain ⟨h1, h2⟩ := hcond
      rw [lessK_true_iff] at h2
      obtain ⟨s1, s2, s3, s4⟩ := ih (a0+1) (by omega) (by omega)
      refine ⟨by omega, s2, ?_, s4⟩
      intro p hp1 hp2
      by_cases hpa : p = a0
      · rw [hpa]
        exact h2
      · exact s3 p (by omega) hp2
    · rename_i hcond
      refine ⟨le_refl _, hab, ?_, ?_⟩
      · intro p h1 h2
        exact absurd h2 (by omega)
      · intro hlt
        have h2 : ¬ (lessK k (l.getD a0 default) (l.getD pivot default) = true) := by
          intro hx
          exact hcond ⟨hlt, hx⟩
        rw [Bool.not_eq_true, lessK_false_iff] at h2
        exact h2

/-- Main partition loop of doPivot: on exit the indices have met, the
processed left part carries keys at or above the pivot key and the
processed right part keys strictly below it. -/
theorem dpMain_spec (k : α → Int) (pivot : Nat) (pv : Int) :
    ∀ (f : Nat) (l : List α) (b c : Nat),
      b ≤ c → c - b ≤ f → pivot < b → c ≤ l.length →
      k (l.getD pivot default) = pv →
      b ≤ (dpMain (lessK k) pivot f l b c).2.1
      ∧ (dpMain (lessK k) pivot f l b c).2.1 = (dpMain (lessK k) pivot f l b c).2.2
      ∧ (dpMain (lessK k) pivot f l b c).2.2 ≤ c
      ∧ RangeAll k (fun x => pv ≤ x) (dpMain (lessK k) pivot f l b c).1 b
          (dpMain (lessK k) pivot f l b c).2.1
      ∧ RangeAll k (fun x => x < pv) (dpMain (lessK k) pivot f l b c).1
          (dpMain (lessK k) pivot f l b c).2.2 c
      ∧ EqOutside l (dpMain (lessK k) pivot f l b c).1 b c
      ∧ (dpMain (lessK k) pivot f l b c).1.length = l.length := by
  intro f
  induction f with
  | zero =>
    intro l b c hbc hf hpb hcl hpv
    have hbe : b = c := by omega
    subst hbe
    rw [dpMain]
    dsimp only
    refine ⟨le_refl _, rfl, le_refl _, ?_, ?_, eqOutside_refl l b b, rfl⟩
    · intro p h1 h2
      exact absurd h2 (by omega)
    · intro p h1 h2
      exact absurd h2 (by omega)
  | succ f ih =>
    intro l b c hbc hf hpb hcl hpv
    rw [dpMain]
    set b1 := dpAdvB (lessK k) l pivot c (c - b) b with hb1def
    set c1 := dpAdvC (lessK k) l pivot b1 (c - b1) c with hc1def
    obtain ⟨hb1a, hb1c, hb1reg, hb1stop⟩ :=
      dpAdvB_spec k l pivot c (c - b) b hbc (le_refl _)
    obtain ⟨hc1b, hc1c, hc1reg, hc1stop⟩ :=
      dpAdvC_spec k l pivot b1 (c - b1) c hb1c (le_refl _)
    split
    · rename_i hge
      dsimp only
      refine ⟨hb1a, by omega, hc1c, ?_, ?_, eqOutside_refl l b c, rfl⟩
      · intro p h1 h2
        rw [hpv] at hb1reg
        exact hb1reg p h1 h2
      · intro p h1 h2
        rw [hpv] at hc1reg
        exact hc1reg p h1 h2
    · rename_i hge
      have hb1c1 : b1 < c1 := by omega
      have hb1ltc : b1 < c := by omega
      have hkb1 : k (l.getD b1 default) < pv := by
        rw [← hpv]
        exact hb1stop hb1ltc
      have hkc1 : pv ≤ k (l.getD (c1-1) default) := by
        rw [← hpv]
        exact hc1stop hb1c1
      have hne : b1 ≠ c1 - 1 := by
        intro he
        rw [← he] at hkc1
        omega
      have hb1l : b1 < l.length := by omega
      have hc1l : c1 - 1 < l.length := by omega
      set l2 := lswap l b1 (c1 - 1) with hl2
      have hlen2 : l2.length = l.length := by
        rw [hl2]
        exact lswap_length l _ _
      have g1 : l2.getD b1 default = l.getD (c1-1) default := by
        rw [hl2]
        exact lswap_getD_left l hb1l hc1l
      have g2 : l2.getD (c1-1) default = l.getD b1 default := by
        rw [hl2]
        exact lswap_getD_right l hb1l hc1l
      have gother : ∀ p, p ≠ b1 → p ≠ c1 - 1 → l2.getD p default = l.getD p default := by
        intro p h1 h2
        rw [hl2]
        exact lswap_getD_other l h1 h2
      have hpv2 : k (l2.getD pivot default) = pv := by
        rw [gother pivot (by omega) (by omega)]
        exact hpv
      obtain ⟨s1, s2, s3, sB, sC, sF, sL⟩ := ih l2 (b1+1) (c1-1) (by omega) (by omega)
        (by omega) (by rw [hlen2]; omega) hpv2
      refine ⟨by omega, s2, by omega, ?_, ?_, ?_, by rw [sL, hlen2]⟩
      · intro p h1 h2
        by_cases hp1 : p < b1
        · rw [sF p (Or.inl (by omega)), gother p (by omega) (by omega)]
          rw [hpv] at hb1reg
          exact hb1reg p h1 hp1
        · by_cases hp2 : p = b1
          · rw [hp2, sF b1 (Or.inl (by omega)), g1]
            exact hkc1
          · exact sB p (by omega) h2
      · intro p h1 h2
        by_cases hp1 : p < c1 - 1
        · exact sC p h1 hp1
        · by_cases hp2 : p = c1 - 1
          · rw [hp2, sF (c1-1) (Or.inr (le_refl _)), g2]
            exact hkb1
          · rw [sF p (Or.inr (by omega)), gother p (by omega) (by omega), ← hpv]
            exact hc1reg p (by omega) h2
      · have e1 : EqOutside l l2 b c := by
          rw [hl2]
          exact lswap_eqOutside l (by omega) (by omega) (by omega) (by omega)
        exact eqOutside_trans e1 (eqOutside_widen sF (by omega) (by omega))

/-- Protection loop of doPivot: given a region whose keys are all at
or above the pivot key, it separates the keys strictly above the pivot
key (left) from those equal to it (right). -/
theorem dpProtect_spec (k : α → Int) (pivot : Nat) (pv : Int) :
    ∀ (f : Nat) (l : List α) (a b : Nat),
      a ≤ b → b - a ≤ f → pivot < a → b ≤ l.length →
      k (l.getD pivot default) = pv →
      RangeAll k (fun x => pv ≤ x) l a b →
      a ≤ (dpProtect (lessK k) pivot f l a b).2.2
      ∧ (dpProtect (lessK k) pivot f l a b).2.2 ≤ b
      ∧ RangeAll k (fun x => pv < x) (dpProtect (lessK k) pivot f l a b).1 a
          (dpProtect (lessK k) pivot f l a b).2.2
      ∧ RangeAll k (fun x => x = pv) (dpProtect (lessK k) pivot f l a b).1
          (dpProtect (lessK k) pivot f l a b).2.2 b
      ∧ EqOutside l (dpProtect (lessK k) pivot f l a b).1 a b
      ∧ (dpProtect (lessK k) pivot f l a b).1.length = l.length := by
  intro f
  induction f with
  | zero =>
    intro l a b hab hf hpa hbl hpv hpre
    have hbe : a = b := by omega
    subst hbe
    rw [dpProtect]
    dsimp only
    refine ⟨le_refl _, le_refl _, ?_, ?_, eqOutside_refl l a a, rfl⟩
    · intro p h1 h2
      exact absurd h2 (by omega)
    · intro p h1 h2
      exact absurd h2 (by omega)
  | succ f ih =>
    intro l a b hab hf hpa hbl hpv hpre
    rw [dpProtect]
    set b1 := dpProtAdvB (lessK k) l pivot a (b - a) b with hb1def
    set a1 := dpProtAdvA (lessK k) l pivot b1 (b1 - a) a with ha1def
    obtain ⟨hb1a, hb1b, hb1reg, hb1stop⟩ :=
      dpProtAdvB_spec k l pivot a (b - a) b hab (le_refl _)
    obtain ⟨ha1a, ha1b, ha1reg, ha1stop⟩ :=
      dpProtAdvA_spec k l pivot b1 (b1 - a) a hb1a (le_refl _)
    split
    · rename_i hge
      dsimp only
      have heq : a1 = b1 := by omega
      refine ⟨by omega, by omega, ?_, ?_, eqOutside_refl l a b, rfl⟩
      · intro p h1 h2
        rw [← hpv]
        exact ha1reg p h1 (by omega)
      · intro p h1 h2
        have hle : k (l.getD p default) ≤ pv := by
          rw [← hpv]
          exact hb1reg p (by omega) h2
        have hge2 : pv ≤ k (l.getD p default) := hpre p (by omega) h2
        omega
    · rename_i hge
      have ha1b1 : a1 < b1 := by omega
      have hka1 : k (l.getD a1 default) = pv := by
        have h1 : k (l.getD a1 default) ≤ pv := by
          rw [← hpv]
          exact ha1stop ha1b1
        have h2 : pv ≤ k (l.getD a1 default) := hpre a1 (by omega) (by omega)
        omega
      have hkb1 : pv < k (l.getD (b1-1) default) := by
        rw [← hpv]
        exact hb1stop (by omega)
      have hne : a1 ≠ b1 - 1 := by
        intro he
        rw [← he] at hkb1
        omega
      have ha1l : a1 < l.length := by omega
      have hb1l : b1 - 1 < l.length := by omega
      set l2 := lswap l a1 (b1 - 1) with hl2
      have hlen2 : l2.length = l.length := by
        rw [hl2]
        exact lswap_length l _ _
      have g1 : l2.getD a1 default = l.getD (b1-1) default := by
        rw [hl2]
        exact lswap_getD_left l ha1l hb1l
      have g2 : l2.getD (b1-1) default = l.getD a1 default := by
        rw [hl2]
        exact lswap_getD_right l ha1l hb1l
      have gother : ∀ p, p ≠ a1 → p ≠ b1 - 1 → l2.getD p default = l.getD p default := by
        intro p h1 h2
        rw [hl2]
        exact lswap_getD_other l h1 h2
      have hpv2 : k (l2.getD pivot default) = pv := by
        rw [gother pivot (by omega) (by omega)]
        exact hpv
      have hpre2 : RangeAll k (fun x => pv ≤ x) l2 (a1+1) (b1-1) := by
        intro p h1 h2
        rw [gother p (by omega) (by omega)]
        exact hpre p (by omega) (by omega)
      obtain ⟨s1, s2, sL', sM, sF, sLen⟩ := ih l2 (a1+1) (b1-1) (by omega) (by omega)
        (by omega) (by rw [hlen2]; omega) hpv2 hpre2
      refine ⟨by omega, by omega, ?_, ?_, ?_, by rw [sLen, hlen2]⟩
      · intro p h1 h2
        by_cases hp1 : p < a1
        · rw [sF p (Or.inl (by omega)), gother p (by omega) (by omega), ← hpv]
          exact ha1reg p h1 hp1
        · by_cases hp2 : p = a1
          · rw [hp2, sF a1 (Or.inl (by omega)), g1]
            exact hkb1
          · exact sL' p (by omega) h2
      · intro p h1 h2
        by_cases hp1 : p < b1 - 1
        · exact sM p h1 hp1
        · by_cases hp2 : p = b1 - 1
          · rw [hp2, sF (b1-1) (Or.inr (le_refl _)), g2]
            exact hka1
          · have hunch : (dpProtect (lessK k) pivot f l2 (a1+1) (b1-1)).1.getD p default
                = l.getD p default := by
              rw [sF p (Or.inr (by omega)), gother p (by omega) (by omega)]
            rw [hunch]
            have hle : k (l.getD p default) ≤ pv := by
              rw [← hpv]
              exact hb1reg p (by omega) h2
            have hge2 : pv ≤ k (l.getD p default) := hpre p (by omega) h2
            omega
      · have e1 : EqOutside l l2 a b := by
          rw [hl2]
          exact lswap_eqOutside l (by omega) (by omega) (by omega) (by omega)
        exact eqOutside_trans e1 (eqOutside_widen sF (by omega) (by omega))

/-- Duplicate-test phase of doPivot.  Starting from the partition
invariant (keys above the pivot key in (lo, a0), at or above it in
[a0, b1), strictly below it in [c1, hi-1), at most it at hi-1, with
b1 = c1), each fired probe extends a middle region of keys equal to
the pivot key; the phase preserves the left region and leaves every
key from the final c at or below the pivot key. -/
theorem doPivotDups_spec (k : α → Int) (l2 : List α) (lo m pivot hi b1 c1 a0 : Nat)
    (pv : Int)
    (hpiv : pivot = lo) (hm : m = (lo + hi) / 2)
    (hgap : lo + 12 < hi) (hlen : hi ≤ l2.length)
    (ha0 : lo + 1 ≤ a0) (ha0b : a0 ≤ b1) (hbc : b1 = c1) (hchi : c1 ≤ hi - 1)
    (hpv : k (l2.getD pivot default) = pv)
    (hA : RangeAll k (fun x => pv < x) l2 (lo+1) a0)
    (hB : RangeAll k (fun x => pv ≤ x) l2 a0 b1)
    (hC : RangeAll k (fun x => x < pv) l2 c1 (hi-1))
    (hE : k (l2.getD (hi-1) default) ≤ pv) :
    a0 ≤ (doPivotDups (lessK k) l2 lo m pivot hi b1 c1).2.1
    ∧ (doPivotDups (lessK k) l2 lo m pivot hi b1 c1).2.1 ≤ b1
    ∧ c1 ≤ (doPivotDups (lessK k) l2 lo m pivot hi b1 c1).2.2.1
    ∧ (doPivotDups (lessK k) l2 lo m pivot hi b1 c1).2.2.1 ≤ hi
    ∧ RangeAll k (fun x => pv ≤ x) (doPivotDups (lessK k) l2 lo m pivot hi b1 c1).1 a0
        (doPivotDups (lessK k) l2 lo m pivot hi b1 c1).2.1
    ∧ RangeAll k (fun x => x = pv) (doPivotDups (lessK k) l2 lo m pivot hi b1 c1).1
        (doPivotDups (lessK k) l2 lo m pivot hi b1 c1).2.1
        (doPivotDups (lessK k) l2 lo m pivot hi b1 c1).2.2.1
    ∧ RangeAll k (fun x => x ≤ pv) (doPivotDups (lessK k) l2 lo m pivot hi b1 c1).1
        (doPivotDups (lessK k) l2 lo m pivot hi b1 c1).2.2.1 hi
    ∧ EqOutside l2 (doPivotDups (lessK k) l2 lo m pivot hi b1 c1).1 a0 hi
    ∧ (doPivotDups (lessK k) l2 lo m pivot hi b1 c1).1.length = l2.length := by
  unfold doPivotDups
  simp only []
  split
  · rename_i hdups
    rw [Bool.and_eq_true] at hdups
    obtain ⟨hdp0, hdp4⟩ := hdups
    rw [Bool.not_eq_eq_eq_not, Bool.not_true, decide_eq_false_iff_not] at hdp0
    rw [decide_eq_true_eq] at hdp4
    have hb1lo : lo + 10 ≤ b1 := by omega
    have hmb1 : m + 1 < b1 := by omega
    have hlom : lo < m := by omega
    have hc1len : c1 < l2.length := by omega
    have hhi1len : hi - 1 < l2.length := by omega
    by_cases hc1t : (!lessK k (l2.getD pivot default) (l2.getD (hi-1) default)) = true
    · rw [if_pos hc1t]
      rw [Bool.not_eq_eq_eq_not, Bool.not_true, lessK_false_iff, hpv] at hc1t
      have hEq : k (l2.getD (hi-1) default) = pv := by omega
      dsimp only
      set L := lswap l2 c1 (hi-1) with hL
      have hLlen : L.length = l2.length := by
        rw [hL]
        exact lswap_length _ _ _
      have gc1 : L.getD c1 default = l2.getD (hi-1) default := by
        rw [hL]
        exact lswap_getD_left _ hc1len hhi1len
      have ghi : L.getD (hi-1) default = l2.getD c1 default := by
        rw [hL]
        exact lswap_getD_right _ hc1len hhi1len
      have goth : ∀ p, p ≠ c1 → p ≠ hi-1 → L.getD p default = l2.getD p default := by
        intro p h1 h2
        rw [hL]
        exact lswap_getD_other _ h1 h2
      have hframe1 : EqOutside l2 L a0 hi := by
        rw [hL]
        exact lswap_eqOutside _ (by omega) (by omega) (by omega) (by omega)
      have hLpv : k (L.getD pivot default) = pv := by
        rw [goth pivot (by omega) (by omega)]
        exact hpv
      have hLA : RangeAll k (fun x => pv < x) L (lo+1) a0 := by
        intro p h1 h2
        rw [goth p (by omega) (by omega)]
        exact hA p h1 h2
      have hLB : RangeAll k (fun x => pv ≤ x) L a0 b1 := by
        intro p h1 h2
        rw [goth p (by omega) (by omega)]
        exact hB p h1 h2
      have hmid : RangeAll k (fun x => x = pv) L b1 (c1+1) := by
        intro p h1 h2
        have hp : p = c1 := by omega
        rw [hp, gc1]
        exact hEq
      have hright : RangeAll k (fun x => x ≤ pv) L (c1+1) hi := by
        intro p h1 h2
        by_cases hp : p = hi - 1
        · rw [hp, ghi]
          by_cases hch : c1 = hi - 1
          · rw [hch]
            exact hE
          · exact le_of_lt (hC c1 (le_refl _) (by omega))
        · rw [goth p (by omega) (by omega)]
          exact le_of_lt (hC p (by omega) (by omega))
      have hcc : b1 ≤ c1 + 1 := by omega
      have hc2hi : c1 + 1 ≤ hi := by omega
      by_cases hc2t : (!lessK k (L.getD (b1-1) default) (L.getD pivot default)) = true
      · rw [if_pos hc2t]
        rw [Bool.not_eq_eq_eq_not, Bool.not_true, lessK_false_iff, hLpv] at hc2t
        have hb1a : a0 ≤ b1 - 1 := by
          by_contra hcon
          have := hLA (b1-1) (by omega) (by omega)
          simp only [] at this
          omega
        have hb1pv : k (L.getD (b1-1) default) = pv := by
          have := hLB (b1-1) hb1a (by omega)
          simp only [] at this
          omega
        dsimp only
        by_cases hc3t : (!lessK k (L.getD m default) (L.getD pivot default)) = true
        · rw [if_pos hc3t]
          rw [Bool.not_eq_eq_eq_not, Bool.not_true, lessK_false_iff, hLpv] at hc3t
          have hma : a0 ≤ m := by
            by_contra hcon
            have := hLA m (by omega) (by omega)
            simp only [] at this
            omega
          have hmpv : k (L.getD m default) = pv := by
            have := hLB m hma (by omega)
            simp only [] at this
            omega
          have hmlen : m < L.length := by omega
          have hb2len : b1 - 1 - 1 < L.length := by omega
          have gm : (lswap L m (b1-1-1)).getD m default = L.getD (b1-1-1) default :=
            lswap_getD_left _ hmlen hb2len
          have gb2 : (lswap L m (b1-1-1)).getD (b1-1-1) default = L.getD m default :=
            lswap_getD_right _ hmlen hb2len
          have goth2 : ∀ p, p ≠ m → p ≠ b1-1-1 →
              (lswap L m (b1-1-1)).getD p default = L.getD p default := by
            intro p h1 h2
            exact lswap_getD_other _ h1 h2
          dsimp only
          refine ⟨by omega, by omega, by omega, by omega, ?_, ?_, ?_, ?_, ?_⟩
          · intro p h1 h2
            by_cases hpm : p = m
            · rw [hpm, gm]
              exact hLB (b1-1-1) (by omega) (by omega)
            · rw [goth2 p hpm (by omega)]
              exact hLB p h1 (by omega)
          · intro p h1 h2
            by_cases hp1 : p = b1-1-1
            · rw [hp1, gb2]
              exact hmpv
            · by_cases hp2 : p = b1-1
              · rw [hp2, goth2 (b1-1) (by omega) (by omega)]
                exact hb1pv
              · rw [goth2 p (by omega) (by omega)]
                exact hmid p (by omega) h2
          · intro p h1 h2
            rw [goth2 p (by omega) (by omega)]
            exact hright p (by omega) h2
          · refine eqOutside_trans hframe1 ?_
            exact lswap_eqOutside L (by omega) (by omega) (by omega) (by omega)
          · rw [lswap_length, hLlen]
        · rw [if_neg hc3t]
          dsimp only
          refine ⟨by omega, by omega, by omega, by omega, ?_, ?_, hright, hframe1, hLlen⟩
          · intro p h1 h2
            exact hLB p h1 (by omega)
          · intro p h1 h2
            by_cases hp : p = b1 - 1
            · rw [hp]
              exact hb1pv
            · exact hmid p (by omega) h2
      · rw [if_neg hc2t]
        rw [Bool.not_eq_true, Bool.not_eq_false', lessK_true_iff, hLpv] at hc2t
        dsimp only
        by_cases hc3t : (!lessK k (L.getD m default) (L.getD pivot default)) = true
        · rw [if_pos hc3t]
          rw [Bool.not_eq_eq_eq_not, Bool.not_true, lessK_false_iff, hLpv] at hc3t
          have hma : a0 ≤ m := by
            by_contra hcon
            have := hLA m (by omega) (by omega)
            simp only [] at this
            omega
          have hmpv : k (L.getD m default) = pv := by
            have := hLB m hma (by omega)
            simp only [] at this
            omega
          have hmlen : m < L.length := by omega
          have hb2len : b1 - 1 < L.length := by omega
          have gm : (lswap L m (b1-1)).getD m default = L.getD (b1-1) default :=
            lswap_getD_left _ hmlen hb2len
          have gb2 : (lswap L m (b1-1)).getD (b1-1) default = L.getD m default :=
            lswap_getD_right _ hmlen hb2len
          have goth2 : ∀ p, p ≠ m → p ≠ b1-1 →
              (lswap L m (b1-1)).getD p default = L.getD p default := by
            intro p h1 h2
            exact lswap_getD_other _ h1 h2
          dsimp only
          refine ⟨by omega, by omega, by omega, by omega, ?_, ?_, ?_, ?_, ?_⟩
          · intro p h1 h2
            by_cases hpm : p = m
            · rw [hpm, gm]
              exact le_of_lt hc2t
            · rw [goth2 p hpm (by omega)]
              exact hLB p h1 (by omega)
          · intro p h1 h2
            by_cases hp1 : p = b1-1
            · rw [hp1, gb2]
              exact hmpv
            · rw [goth2 p (by omega) (by omega)]
              exact hmid p (by omega) h2
          · intro p h1 h2
            rw [goth2 p (by omega) (by omega)]
            exact hright p (by omega) h2
          · refine eqOutside_trans hframe1 ?_
            exact lswap_eqOutside L (by omega) (by omega) (by omega) (by omega)
          · rw [lswap_length, hLlen]
        · rw [if_neg hc3t]
          dsimp only
          exact ⟨by omega, by omega, by omega, by omega, hLB, hmid, hright, hframe1, hLlen⟩
    · rw [if_neg hc1t]
      rw [Bool.not_eq_true, Bool.not_eq_false', lessK_true_iff, hpv] at hc1t
      dsimp only
      have hLA := hA
      have hLB := hB
      have hmid : RangeAll k (fun x => x = pv) l2 b1 c1 := by
        intro p h1 h2
        exact absurd h2 (by omega)
      have hright : RangeAll k (fun x => x ≤ pv) l2 c1 hi := by
        intro p h1 h2
        by_cases hp : p = hi - 1
        · rw [hp]
          exact hE
        · exact le_of_lt (hC p (by omega) (by omega))
      have hcc : b1 ≤ c1 := by omega
      have hc2hi : c1 ≤ hi := by omega
      by_cases hc2t : (!lessK k (l2.getD (b1-1) default) (l2.getD pivot default)) = true
      · rw [if_pos hc2t]
        rw [Bool.not_eq_eq_eq_not, Bool.not_true, lessK_false_iff, hpv] at hc2t
        have hb1a : a0 ≤ b1 - 1 := by
          by_contra hcon
          have := hLA (b1-1) (by omega) (by omega)
          simp only [] at this
          omega
        have hb1pv : k (l2.getD (b1-1) default) = pv := by
          have := hLB (b1-1) hb1a (by omega)
          simp only [] at this
          omega
        dsimp only
        by_cases hc3t : (!lessK k (l2.getD m default) (l2.getD pivot default)) = true
        · rw [if_pos hc3t]
          rw [Bool.not_eq_eq_eq_not, Bool.not_true, lessK_false_iff, hpv] at hc3t
          have hma : a0 ≤ m := by
            by_contra hcon
            have := hLA m (by omega) (by omega)
            simp only [] at this
            omega
          have hmpv : k (l2.getD m default) = pv := by
            have := hLB m hma (by omega)
            simp only [] at this
            omega
          have hmlen : m < l2.length := by omega
          have hb2len : b1 - 1 - 1 < l2.length := by omega
          have gm : (lswap l2 m (b1-1-1)).getD m default = l2.getD (b1-1-1) default :=
            lswap_getD_left _ hmlen hb2len
          have gb2 : (lswap l2 m (b1-1-1)).getD (b1-1-1) default = l2.getD m default :=
            lswap_getD_right _ hmlen hb2len
          have goth2 : ∀ p, p ≠ m → p ≠ b1-1-1 →
              (lswap l2 m (b1-1-1)).getD p default = l2.getD p default := by
            intro p h1 h2
            exact lswap_getD_other _ h1 h2
          dsimp only
          refine ⟨by omega, by omega, by omega, by omega, ?_, ?_, ?_, ?_, ?_⟩
          · intro p h1 h2
            by_cases hpm : p = m
            · rw [hpm, gm]
              exact hLB (b1-1-1) (by omega) (by omega)
            · rw [goth2 p hpm (by omega)]
              exact hLB p h1 (by omega)
          · intro p h1 h2
            by_cases hp1 : p = b1-1-1
            · rw [hp1, gb2]
              exact hmpv
            · by_cases hp2 : p = b1-1
              · rw [hp2, goth2 (b1-1) (by omega) (by omega)]
                exact hb1pv
              · rw [goth2 p (by omega) (by omega)]
                exact hmid p (by omega) h2
          · intro p h1 h2
            rw [goth2 p (by omega) (by omega)]
            exact hright p (by omega) h2
          · exact lswap_eqOutside l2 (by omega) (by omega) (by omega) (by omega)
          · rw [lswap_length]
        · rw [if_neg hc3t]
          dsimp only
          refine ⟨by omega, by omega, by omega, by omega, ?_, ?_, hright,
            eqOutside_refl l2 a0 hi, rfl⟩
          · intro p h1 h2
            exact hLB p h1 (by omega)
          · intro p h1 h2
            by_cases hp : p = b1 - 1
            · rw [hp]
              exact hb1pv
            · exact hmid p (by omega) h2
      · rw [if_neg hc2t]
        rw [Bool.not_eq_true, Bool.not_eq_false', lessK_true_iff, hpv] at hc2t
        dsimp only
        by_cases hc3t : (!lessK k (l2.getD m default) (l2.getD pivot default)) = true
        · rw [if_pos hc3t]
          rw [Bool.not_eq_eq_eq_not, Bool.not_true, lessK_false_iff, hpv] at hc3t
          have hma : a0 ≤ m := by
            by_contra hcon
            have := hLA m (by omega) (by omega)
            simp only [] at this
            omega
          have hmpv : k (l2.getD m default) = pv := by
            have := hLB m hma (by omega)
            simp only [] at this
            omega
          have hmlen : m < l2.length := by omega
          have hb2len : b1 - 1 < l2.length := by omega
          have gm : (lswap l2 m (b1-1)).getD m default = l2.getD (b1-1) default :=
            lswap_getD_left _ hmlen hb2len
          have gb2 : (lswap l2 m (b1-1)).getD (b1-1) default = l2.getD m default :=
            lswap_getD_right _ hmlen hb2len
          have goth2 : ∀ p, p ≠ m → p ≠ b1-1 →
              (lswap l2 m (b1-1)).getD p default = l2.getD p default := by
            intro p h1 h2
            exact lswap_getD_other _ h1 h2
          dsimp only
          refine ⟨by omega, by omega, by omega, by omega, ?_, ?_, ?_, ?_, ?_⟩
          · intro p h1 h2
            by_cases hpm : p = m
            · rw [hpm, gm]
              exact le_of_lt hc2t
            · rw [goth2 p hpm (by omega)]
              exact hLB p h1 (by omega)
          · intro p h1 h2
            by_cases hp1 : p = b1-1
            · rw [hp1, gb2]
              exact hmpv
            · rw [goth2 p (by omega) (by omega)]
              exact hmid p (by omega) h2
          · intro p h1 h2
            rw [goth2 p (by omega) (by omega)]
            exact hright p (by omega) h2
          · exact lswap_eqOutside l2 (by omega) (by omega) (by omega) (by omega)
          · rw [lswap_length]
        · rw [if_neg hc3t]
          dsimp only
          exact ⟨by omega, by omega, by omega, by omega, hLB, hmid, hright,
            eqOutside_refl l2 a0 hi, rfl⟩
  · rename_i hnod
    dsimp only
    refine ⟨ha0b, le_refl _, le_refl _, by omega, hB, ?_, ?_, eqOutside_refl l2 a0 hi, rfl⟩
    · intro p h1 h2
      exact absurd h2 (by omega)
    · intro p h1 h2
      by_cases hp : p = hi - 1
      · rw [hp]
        exact hE
      · exact le_of_lt (hC p (by omega) (by omega))

/-- medianOfThree on three distinct in-range positions only touches
those positions and leaves the key at m2 at most the key at m1. -/
theorem medianOfThree_spec (k : α → Int) (l : List α) (m1 m0 m2 a b : Nat)
    (h1a : a ≤ m1) (h1b : m1 < b) (h0a : a ≤ m0) (h0b : m0 < b)
    (h2a : a ≤ m2) (h2b : m2 < b) (hb : b ≤ l.length)
    (d10 : m1 ≠ m0) (d12 : m1 ≠ m2) (d02 : m0 ≠ m2) :
    k ((medianOfThree (lessK k) l m1 m0 m2).getD m2 default)
      ≤ k ((medianOfThree (lessK k) l m1 m0 m2).getD m1 default)
    ∧ EqOutside l (medianOfThree (lessK k) l m1 m0 m2) a b
    ∧ (medianOfThree (lessK k) l m1 m0 m2).length = l.length := by
  have hm1l : m1 < l.length := by omega
  have hm0l : m0 < l.length := by omega
  have hm2l : m2 < l.length := by omega
  unfold medianOfThree
  simp only []
  by_cases hc0 : lessK k (l.getD m1 default) (l.getD m0 default) = true
  · rw [if_pos hc0]
    rw [lessK_true_iff] at hc0
    set L1 := lswap l m1 m0 with hL1
    have hL1len : L1.length = l.length := by
      rw [hL1]
      exact lswap_length l m1 m0
    have e1 : L1.getD m1 default = l.getD m0 default := by
      rw [hL1]
      exact lswap_getD_left l hm1l hm0l
    have e0 : L1.getD m0 default = l.getD m1 default := by
      rw [hL1]
      exact lswap_getD_right l hm1l hm0l
    have e2 : L1.getD m2 default = l.getD m2 default := by
      rw [hL1]
      exact lswap_getD_other l (Ne.symm d12) (Ne.symm d02)
    have fr1 : EqOutside l L1 a b := by
      rw [hL1]
      exact lswap_eqOutside l h1a h1b h0a h0b
    by_cases hc1 : lessK k (L1.getD m2 default) (L1.getD m1 default) = true
    · rw [if_pos hc1]
      rw [lessK_true_iff, e1, e2] at hc1
      set LA := lswap L1 m2 m1 with hLA
      have hm2L1 : m2 < L1.length := by omega
      have hm1L1 : m1 < L1.length := by omega
      have hLAlen : LA.length = L1.length := by
        rw [hLA]
        exact lswap_length L1 m2 m1
      have f2 : LA.getD m2 default = L1.getD m1 default := by
        rw [hLA]
        exact lswap_getD_left L1 hm2L1 hm1L1
      have f1 : LA.getD m1 default = L1.getD m2 default := by
        rw [hLA]
        exact lswap_getD_right L1 hm2L1 hm1L1
      have f0 : LA.getD m0 default = L1.getD m0 default := by
        rw [hLA]
        exact lswap_getD_other L1 d02 (Ne.symm d10)
      have frA : EqOutside L1 LA a b := by
        rw [hLA]
        exact lswap_eqOutside L1 h2a h2b h1a h1b
      by_cases hc2 : lessK k (LA.getD m1 default) (LA.getD m0 default) = true
      · rw [if_pos hc2]
        have hm1LA : m1 < LA.length := by omega
        have hm0LA : m0 < LA.length := by omega
        have g2 : (lswap LA m1 m0).getD m2 default = LA.getD m2 default :=
          lswap_getD_other LA (Ne.symm d12) (Ne.symm d02)
        have g1 : (lswap LA m1 m0).getD m1 default = LA.getD m0 default :=
          lswap_getD_left LA hm1LA hm0LA
        refine ⟨?_, ?_, ?_⟩
        · rw [g2, g1, f2, f0, e1, e0]
          exact le_of_lt hc0
        · exact eqOutside_trans fr1
            (eqOutside_trans frA (lswap_eqOutside LA h1a h1b h0a h0b))
        · rw [lswap_length]
          omega
      · rw [if_neg hc2]
        refine ⟨?_, eqOutside_trans fr1 frA, by omega⟩
        rw [f2, f1, e1, e2]
        exact le_of_lt hc1
    · rw [if_neg hc1]
      rw [Bool.not_eq_true, lessK_false_iff] at hc1
      exact ⟨hc1, fr1, by omega⟩
  · rw [if_neg hc0]
    rw [Bool.not_eq_true, lessK_false_iff] at hc0
    by_cases hc1 : lessK k (l.getD m2 default) (l.getD m1 default) = true
    · rw [if_pos hc1]
      rw [lessK_true_iff] at hc1
      set LA := lswap l m2 m1 with hLA
      have hLAlen : LA.length = l.length := by
        rw [hLA]
        exact lswap_length l m2 m1
      have f2 : LA.getD m2 default = l.getD m1 default := by
        rw [hLA]
        exact lswap_getD_left l hm2l hm1l
      have f1 : LA.getD m1 default = l.getD m2 default := by
        rw [hLA]
        exact lswap_getD_right l hm2l hm1l
      have f0 : LA.getD m0 default = l.getD m0 default := by
        rw [hLA]
        exact lswap_getD_other l d02 (Ne.symm d10)
      have frA : EqOutside l LA a b := by
        rw [hLA]
        exact lswap_eqOutside l h2a h2b h1a h1b
      by_cases hc2 : lessK k (LA.getD m1 default) (LA.getD m0 default) = true
      · rw [if_pos hc2]
        have hm1LA : m1 < LA.length := by omega
        have hm0LA : m0 < LA.length := by omega
        have g2 : (lswap LA m1 m0).getD m2 default = LA.getD m2 default :=
          lswap_getD_other LA (Ne.symm d12) (Ne.symm d02)
        have g1 : (lswap LA m1 m0).getD m1 default = LA.getD m0 default :=
          lswap_getD_left LA hm1LA hm0LA
        refine ⟨?_, ?_, ?_⟩
        · rw [g2, g1, f2, f0]
          exact hc0
        · exact eqOutside_trans frA (lswap_eqOutside LA h1a h1b h0a h0b)
        · rw [lswap_length]
          omega
      · rw [if_neg hc2]
        refine ⟨?_, frA, by omega⟩
        rw [f2, f1]
        exact le_of_lt hc1
    · rw [if_neg hc1]
      rw [Bool.not_eq_true, lessK_false_iff] at hc1
      exact ⟨hc1, eqOutside_refl l a b, rfl⟩

/-- Pivot-selection phase of doPivot: it only rearranges positions
inside [lo, hi) and leaves the key at hi-1 at most the key at lo. -/
theorem doPivotSetup_spec (k : α → Int) (l : List α) (lo hi m : Nat)
    (hmdef : m = (lo + hi) / 2) (hgap : lo + 12 < hi) (hlen : hi ≤ l.length) :
    k ((doPivotSetup (lessK k) l lo hi m).getD (hi-1) default)
      ≤ k ((doPivotSetup (lessK k) l lo hi m).getD lo default)
    ∧ EqOutside l (doPivotSetup (lessK k) l lo hi m) lo hi
    ∧ (doPivotSetup (lessK k) l lo hi m).length = l.length := by
  unfold doPivotSetup
  simp only []
  by_cases h40 : hi - lo > 40
  · rw [if_pos h40]
    set s := (hi - lo) / 8 with hs
    have s5 : 5 ≤ s := by omega
    obtain ⟨-, frI, lenI⟩ := medianOfThree_spec k l lo (lo + s) (lo + 2 * s) lo hi
      (le_refl _) (by omega) (by omega) (by omega) (by omega) (by omega) hlen
      (by omega) (by omega) (by omega)
    set LI := medianOfThree (lessK k) l lo (lo + s) (lo + 2 * s) with hLI
    obtain ⟨-, frM, lenM⟩ := medianOfThree_spec k LI m (m - s) (m + s) lo hi
      (by omega) (by omega) (by omega) (by omega) (by omega) (by omega) (by omega)
      (by omega) (by omega) (by omega)
    set LM := medianOfThree (lessK k) LI m (m - s) (m + s) with hLM
    obtain ⟨-, frO, lenO⟩ := medianOfThree_spec k LM (hi-1) (hi-1-s) (hi-1-2*s) lo hi
      (by omega) (by omega) (by omega) (by omega) (by omega) (by omega) (by omega)
      (by omega) (by omega) (by omega)
    set LO := medianOfThree (lessK k) LM (hi-1) (hi-1-s) (hi-1-2*s) with hLO
    obtain ⟨postF, frF, lenF⟩ := medianOfThree_spec k LO lo m (hi-1) lo hi
      (le_refl _) (by omega) (by omega) (by omega) (by omega) (by omega) (by omega)
      (by omega) (by omega) (by omega)
    exact ⟨postF, eqOutside_trans frI (eqOutside_trans frM (eqOutside_trans frO frF)),
      by omega⟩
  · rw [if_neg h40]
    exact medianOfThree_spec k l lo m (hi-1) lo hi
      (le_refl _) (by omega) (by omega) (by omega) (by omega) (by omega) hlen
      (by omega) (by omega) (by omega)

/-- doPivot partitions [lo, hi): at most the pivot key left of midlo,
exactly it on [midlo, midhi), at least it from midhi (keys at most the
pivot key sort after it in Go order, so the key ranges are stated
descending); positions outside [lo, hi) are untouched. -/
theorem doPivot_spec (k : α → Int) (l : List α) (lo hi : Nat) {out : List α}
    {mlo mhi : Nat} (hlen : hi ≤ l.length) (hgap : lo + 12 < hi)
    (heq : doPivot (lessK k) l lo hi = (out, mlo, mhi)) :
    lo ≤ mlo ∧ mlo < mhi ∧ mhi ≤ hi
    ∧ RangeAll k (fun x => k (out.getD mlo default) ≤ x) out lo mlo
    ∧ RangeAll k (fun x => x = k (out.getD mlo default)) out mlo mhi
    ∧ RangeAll k (fun x => x ≤ k (out.getD mlo default)) out mhi hi
    ∧ EqOutside l out lo hi
    ∧ out.length = l.length := by
  unfold doPivot at heq
  simp only [] at heq
  rw [Prod.mk.injEq, Prod.mk.injEq] at heq
  obtain ⟨he1, he2, he3⟩ := heq
  subst he1
  subst he2
  subst he3
  obtain ⟨hsPost, hsFrame, hsLen⟩ := doPivotSetup_spec k l lo hi ((lo + hi) / 2)
    rfl hgap hlen
  set l1 := doPivotSetup (lessK k) l lo hi ((lo + hi) / 2) with hl1
  obtain ⟨hsc1, hsc2, hscReg, hscStop⟩ := dpScanLess_spec k l1 lo (hi - 1)
    (hi - 1 - (lo + 1)) (lo + 1) (by omega) (le_refl _)
  set a0 := dpScanLess (lessK k) l1 lo (hi - 1) (hi - 1 - (lo + 1)) (lo + 1) with ha0def
  set pv := k (l1.getD lo default) with hpvdef
  obtain ⟨hq1, hq2, hq3, hqB, hqC, hqF, hqL⟩ := dpMain_spec k lo pv (hi - 1 - a0) l1 a0
    (hi - 1) hsc2 (le_refl _) (by omega) (by omega) hpvdef.symm
  set L2 := (dpMain (lessK k) lo (hi - 1 - a0) l1 a0 (hi - 1)).1 with hL2
  set b1 := (dpMain (lessK k) lo (hi - 1 - a0) l1 a0 (hi - 1)).2.1 with hb1
  set c1 := (dpMain (lessK k) lo (hi - 1 - a0) l1 a0 (hi - 1)).2.2 with hc1
  have hL2len : L2.length = l.length := by omega
  have hpv2 : k (L2.getD lo default) = pv := by
    rw [hqF lo (Or.inl (by omega))]
  have hA2 : RangeAll k (fun x => pv < x) L2 (lo+1) a0 := by
    intro p h1 h2
    rw [hqF p (Or.inl h2)]
    exact hscReg p h1 h2
  have hE2 : k (L2.getD (hi-1) default) ≤ pv := by
    rw [hqF (hi-1) (Or.inr (le_refl _))]
    exact hsPost
  obtain ⟨hdb1, hdb2, hdc1, hdc2, hdB, hdM, hdC, hdF, hdL⟩ :=
    doPivotDups_spec k L2 lo ((lo + hi) / 2) lo hi b1 c1 a0 pv rfl rfl hgap
      (by omega) hsc1 hq1 hq2 hq3 hpv2 hA2 hqB hqC hE2
  set L3 := (doPivotDups (lessK k) L2 lo ((lo + hi) / 2) lo hi b1 c1).1 with hL3
  set b2 := (doPivotDups (lessK k) L2 lo ((lo + hi) / 2) lo hi b1 c1).2.1 with hb2
  set c2 := (doPivotDups (lessK k) L2 lo ((lo + hi) / 2) lo hi b1 c1).2.2.1 with hc2
  have hpv3 : k (L3.getD lo default) = pv := by
    rw [hdF lo (Or.inl (by omega))]
    exact hpv2
  have hA3 : RangeAll k (fun x => pv < x) L3 (lo+1) a0 :=
    rangeAll_of_eqOutside hdF (Or.inl (le_refl a0)) hA2
  have hFrame3 : EqOutside l L3 lo hi :=
    eqOutside_trans hsFrame (eqOutside_trans (eqOutside_widen hqF (by omega) (by omega))
      (eqOutside_widen hdF (by omega) (le_refl _)))
  have hLen3 : L3.length = l.length := by omega
  have hfinal : ∀ (L4 : List α) (b3 : Nat), a0 ≤ b3 → b3 ≤ c2 →
      RangeAll k (fun x => pv ≤ x) L4 a0 b3 →
      RangeAll k (fun x => x = pv) L4 b3 c2 →
      RangeAll k (fun x => x ≤ pv) L4 c2 hi →
      RangeAll k (fun x => pv < x) L4 (lo+1) a0 →
      k (L4.getD lo default) = pv →
      EqOutside l L4 lo hi → L4.length = l.length →
      (lo ≤ b3 - 1 ∧ b3 - 1 < c2 ∧ c2 ≤ hi
      ∧ RangeAll k (fun x => k ((lswap L4 lo (b3-1)).getD (b3-1) default) ≤ x)
          (lswap L4 lo (b3-1)) lo (b3-1)
      ∧ RangeAll k (fun x => x = k ((lswap L4 lo (b3-1)).getD (b3-1) default))
          (lswap L4 lo (b3-1)) (b3-1) c2
      ∧ RangeAll k (fun x => x ≤ k ((lswap L4 lo (b3-1)).getD (b3-1) default))
          (lswap L4 lo (b3-1)) c2 hi
      ∧ EqOutside l (lswap L4 lo (b3-1)) lo hi
      ∧ (lswap L4 lo (b3-1)).length = l.length) := by
    intro L4 b3 h1 h2 hLft hMid hRight hAreg hpv4 hFr hLen4
    have hlo4 : lo < L4.length := by omega
    have hb31 : b3 - 1 < L4.length := by omega
    have gLo : (lswap L4 lo (b3-1)).getD lo default = L4.getD (b3-1) default :=
      lswap_getD_left L4 hlo4 hb31
    have gB3 : (lswap L4 lo (b3-1)).getD (b3-1) default = L4.getD lo default :=
      lswap_getD_right L4 hlo4 hb31
    have gOther : ∀ p, p ≠ lo → p ≠ b3 - 1 →
        (lswap L4 lo (b3-1)).getD p default = L4.getD p default := by
      intro p ha hb2'
      exact lswap_getD_other L4 ha hb2'
    have hpvF : k ((lswap L4 lo (b3-1)).getD (b3-1) default) = pv := by
      rw [gB3]
      exact hpv4
    rw [hpvF]
    refine ⟨by omega, by omega, hdc2, ?_, ?_, ?_, ?_, ?_⟩
    · intro p hp1 hp2
      by_cases hplo : p = lo
      · rw [hplo, gLo]
        by_cases hba : a0 ≤ b3 - 1
        · exact hLft (b3-1) hba (by omega)
        · exact le_of_lt (hAreg (b3-1) (by omega) (by omega))
      · rw [gOther p hplo (by omega)]
        by_cases hpa : p < a0
        · exact le_of_lt (hAreg p (by omega) hpa)
        · exact hLft p (by omega) (by omega)
    · intro p hp1 hp2
      by_cases hp0 : p = b3 - 1
      · rw [hp0, gB3]
        exact hpv4
      · rw [gOther p (by omega) hp0]
        exact hMid p (by omega) hp2
    · intro p hp1 hp2
      rw [gOther p (by omega) (by omega)]
      exact hRight p hp1 hp2
    · refine eqOutside_trans hFr ?_
      exact lswap_eqOutside L4 (le_refl _) (by omega) (by omega) (by omega)
    · rw [lswap_length]
      exact hLen4
  by_cases hprot : (doPivotDups (lessK k) L2 lo ((lo + hi) / 2) lo hi b1 c1).2.2.2 = true
  · rw [if_pos hprot]
    obtain ⟨hp1, hp2, hpL, hpM, hpF, hpLen⟩ := dpProtect_spec k lo pv (b2 - a0) L3 a0 b2
      hdb1 (le_refl _) (by omega) (by omega) hpv3 hdB
    set L4 := (dpProtect (lessK k) lo (b2 - a0) L3 a0 b2).1 with hL4
    set b3 := (dpProtect (lessK k) lo (b2 - a0) L3 a0 b2).2.2 with hb3
    refine hfinal L4 b3 hp1 (by omega) ?_ ?_ ?_ ?_ ?_ ?_ ?_
    · exact rangeAll_imp hpL (fun x hx => le_of_lt hx)
    · intro p h1 h2
      by_cases hpb : p < b2
      · exact hpM p h1 hpb
      · rw [hpF p (Or.inr (by omega))]
        exact hdM p (by omega) h2
    · exact rangeAll_of_eqOutside hpF (Or.inr (by omega)) hdC
    · exact rangeAll_of_eqOutside hpF (Or.inl (le_refl _)) hA3
    · rw [hpF lo (Or.inl (by omega))]
      exact hpv3
    · refine eqOutside_trans hFrame3 ?_
      exact eqOutside_widen hpF (by omega) (by omega)
    · omega
  · rw [if_neg hprot]
    dsimp only
    exact hfinal L3 b2 hdb1 (by omega) hdB hdM hdC hA3 hpv3 hFrame3 hLen3

theorem keyD_eq (k : α → Int) (l : List α) {i j : Nat} (h : i = j) :
    k (l.getD i default) = k (l.getD j default) := by
  rw [h]

/-- Parent links of the Go heap on [first, first+hi): every child whose
parent index is at least r has a key at least the parent key (the heap
keeps the smallest key on top, which is the less-greatest element). -/
def HeapParents (k : α → Int) (l : List α) (first hi r : Nat) : Prop :=
  ∀ c, 0 < c → c < hi → r ≤ (c-1)/2 →
    k (l.getD (first + (c-1)/2) default) ≤ k (l.getD (first + c) default)

/-- siftDown restores the parent links at root, touches only position
root and positions from 2 root + 1 on inside the heap, and leaves at
the root its initial value or that of one of its children. -/
theorem siftDown_spec (k : α → Int) (first hi : Nat) :
    ∀ (f : Nat) (l : List α) (root : Nat),
      hi - root ≤ f → first + hi ≤ l.length →
      HeapParents k l first hi (root+1) →
      HeapParents k (siftDown (lessK k) first hi f l root) first hi root
      ∧ EqOutside l (siftDown (lessK k) first hi f l root) first (first+hi)
      ∧ (∀ q, q ≠ root → q < 2*root+1 →
          (siftDown (lessK k) first hi f l root).getD (first+q) default
            = l.getD (first+q) default)
      ∧ ((siftDown (lessK k) first hi f l root).getD (first+root) default
            = l.getD (first+root) default
         ∨ (2*root+1 < hi ∧ (siftDown (lessK k) first hi f l root).getD (first+root) default
              = l.getD (first+(2*root+1)) default)
         ∨ (2*root+2 < hi ∧ (siftDown (lessK k) first hi f l root).getD (first+root) default
              = l.getD (first+(2*root+2)) default))
      ∧ (siftDown (lessK k) first hi f l root).length = l.length := by
  intro f
  induction f with
  | zero =>
    intro l root hf hlen hpre
    rw [siftDown]
    refine ⟨?_, eqOutside_refl l first (first+hi), fun q h1 h2 => rfl, Or.inl rfl, rfl⟩
    intro c hc1 hc2 hc3
    exact absurd hc3 (by omega)
  | succ f ih =>
    intro l root hf hlen hpre
    rw [siftDown]
    simp only []
    by_cases hch0 : 2*root+1 ≥ hi
    · rw [if_pos hch0]
      refine ⟨?_, eqOutside_refl l first (first+hi), fun q h1 h2 => rfl, Or.inl rfl, rfl⟩
      intro c hc1 hc2 hc3
      by_cases hcr : (c-1)/2 = root
      · exact absurd hc2 (by omega)
      · exact hpre c hc1 hc2 (by omega)
    · rw [if_neg hch0]
      have hc0lt : 2*root+1 < hi := by omega
      have hbase : ∀ ch : Nat, (ch = 2*root+1 ∨ ch = 2*root+2) → ch < hi →
          k (l.getD (first+ch) default) ≤ k (l.getD (first+(2*root+1)) default) →
          (2*root+2 < hi → k (l.getD (first+ch) default) ≤ k (l.getD (first+(2*root+2)) default)) →
          k (l.getD (first+root) default) ≤ k (l.getD (first+ch) default) →
          HeapParents k l first hi root := by
        intro ch hchin hchlt hmin1 hmin2 hroot
        intro c hc1 hc2 hc3
        by_cases hcr : (c-1)/2 = root
        · have hcc : c = 2*root+1 ∨ c = 2*root+2 := by omega
          rw [hcr]
          rcases hcc with hcc | hcc
          · rw [hcc]
            exact le_trans hroot hmin1
          · rw [hcc]
            exact le_trans hroot (hmin2 (by omega))
        · exact hpre c hc1 hc2 (by omega)
      have hcont : ∀ ch : Nat, (ch = 2*root+1 ∨ ch = 2*root+2) → ch < hi →
          k (l.getD (first+ch) default) ≤ k (l.getD (first+(2*root+1)) default) →
          (2*root+2 < hi → k (l.getD (first+ch) default) ≤ k (l.getD (first+(2*root+2)) default)) →
          k (l.getD (first+ch) default) < k (l.getD (first+root) default) →
          HeapParents k (siftDown (lessK k) first hi f (lswap l (first+root) (first+ch)) ch)
            first hi root
          ∧ EqOutside l (siftDown (lessK k) first hi f (lswap l (first+root) (first+ch)) ch)
              first (first+hi)
          ∧ (∀ q, q ≠ root → q < 2*root+1 →
              (siftDown (lessK k) first hi f (lswap l (first+root) (first+ch)) ch).getD
                  (first+q) default
                = l.getD (first+q) default)
          ∧ ((siftDown (lessK k) first hi f (lswap l (first+root) (first+ch)) ch).getD
                  (first+root) default
                = l.getD (first+root) default
             ∨ (2*root+1 < hi ∧ (siftDown (lessK k) first hi f
                  (lswap l (first+root) (first+ch)) ch).getD (first+root) default
                  = l.getD (first+(2*root+1)) default)
             ∨ (2*root+2 < hi ∧ (siftDown (lessK k) first hi f
                  (lswap l (first+root) (first+ch)) ch).getD (first+root) default
                  = l.getD (first+(2*root+2)) default))
          ∧ (siftDown (lessK k) first hi f (lswap l (first+root) (first+ch)) ch).length
              = l.length := by
        intro ch hchin hchlt hmin1 hmin2 hlt
        have hchb : 2*root+1 ≤ ch ∧ ch ≤ 2*root+2 := by
          rcases hchin with h | h <;> omega
        obtain ⟨hchb1, hchb2⟩ := hchb
        have hrl : first + root < l.length := by omega
        have hcl : first + ch < l.length := by omega
        set l2 := lswap l (first+root) (first+ch) with hl2
        have hlen2 : l2.length = l.length := by
          rw [hl2]
          exact lswap_length _ _ _
        have g1 : l2.getD (first+root) default = l.getD (first+ch) default := by
          rw [hl2]
          exact lswap_getD_left l hrl hcl
        have g2 : l2.getD (first+ch) default = l.getD (first+root) default := by
          rw [hl2]
          exact lswap_getD_right l hrl hcl
        have gother : ∀ p, p ≠ first+root → p ≠ first+ch →
            l2.getD p default = l.getD p default := by
          intro p h1 h2
          rw [hl2]
          exact lswap_getD_other l h1 h2
        have hpre2 : HeapParents k l2 first hi (ch+1) := by
          intro c hc1 hc2 hc3
          have e1 : l2.getD (first+(c-1)/2) default = l.getD (first+(c-1)/2) default :=
            gother _ (by omega) (by omega)
          have e2 : l2.getD (first+c) default = l.getD (first+c) default :=
            gother _ (by omega) (by omega)
          rw [e1, e2]
          exact hpre c hc1 hc2 (by omega)
        obtain ⟨sHp, sCF, sFF, sRV, sLen⟩ := ih l2 ch (by omega) (by omega) hpre2
        have hunt : ∀ q, q ≠ root → q < 2*root+1 →
            (siftDown (lessK k) first hi f l2 ch).getD (first+q) default
              = l.getD (first+q) default := by
          intro q h1 h2
          rw [sFF q (by omega) (by omega), gother _ (by omega) (by omega)]
        have hXroot : (siftDown (lessK k) first hi f l2 ch).getD (first+root) default
            = l.getD (first+ch) default := by
          rw [sFF root (by omega) (by omega), g1]
        have hother_pos : ∀ o : Nat, (o = 2*root+1 ∨ o = 2*root+2) → o < hi → o ≠ ch →
            (siftDown (lessK k) first hi f l2 ch).getD (first+o) default
              = l.getD (first+o) default := by
          intro o ho hoh honc
          have hob : 2*root+1 ≤ o ∧ o ≤ 2*root+2 := by
            rcases ho with h | h <;> omega
          rw [sFF o (by omega) (by omega), gother _ (by omega) (by omega)]
        have hXch : k (l.getD (first+ch) default)
            ≤ k ((siftDown (lessK k) first hi f l2 ch).getD (first+ch) default) := by
          rcases sRV with h | ⟨hb2, h⟩ | ⟨hb2, h⟩
          · rw [h, g2]
            exact le_of_lt hlt
          · rw [h, gother _ (by omega) (by omega)]
            have hx := hpre (2*ch+1) (by omega) hb2 (by omega)
            rw [keyD_eq k l (show first+(2*ch+1-1)/2 = first+ch from by omega)] at hx
            exact hx
          · rw [h, gother _ (by omega) (by omega)]
            have hx := hpre (2*ch+2) (by omega) hb2 (by omega)
            rw [keyD_eq k l (show first+(2*ch+2-1)/2 = first+ch from by omega)] at hx
            exact hx
        refine ⟨?_, ?_, hunt, ?_, by omega⟩
        · intro c hc1 hc2 hc3
          by_cases hcr : ch ≤ (c-1)/2
          · exact sHp c hc1 hc2 hcr
          · by_cases hcr2 : (c-1)/2 = root
            · have hcc : c = 2*root+1 ∨ c = 2*root+2 := by omega
              rw [hcr2, hXroot]
              by_cases hcch : c = ch
              · rw [hcch]
                exact hXch
              · rw [hother_pos c hcc hc2 hcch]
                rcases hcc with hcc | hcc
                · rw [hcc]
                  exact hmin1
                · rw [hcc]
                  exact hmin2 (by omega)
            · have hp1 : root < (c-1)/2 := by omega
              have hp2 : (c-1)/2 < ch := by omega
              have e1 : (siftDown (lessK k) first hi f l2 ch).getD (first+(c-1)/2) default
                  = l.getD (first+(c-1)/2) default := by
                rw [sFF ((c-1)/2) (by omega) (by omega), gother _ (by omega) (by omega)]
              have e2 : (siftDown (lessK k) first hi f l2 ch).getD (first+c) default
                  = l.getD (first+c) default := by
                rw [sFF c (by omega) (by omega), gother _ (by omega) (by omega)]
              rw [e1, e2]
              exact hpre c hc1 hc2 (by omega)
        · have e1 : EqOutside l l2 first (first+hi) := by
            rw [hl2]
            exact lswap_eqOutside l (by omega) (by omega) (by omega) (by omega)
          exact eqOutside_trans e1 sCF
        · rcases hchin with hcc | hcc
          · refine Or.inr (Or.inl ⟨by omega, ?_⟩)
            rw [hXroot, hcc]
          · refine Or.inr (Or.inr ⟨by omega, ?_⟩)
            rw [hXroot, hcc]
      by_cases hsel : 2*root+1+1 < hi
          ∧ lessK k (l.getD (first+(2*root+1)) default) (l.getD (first+(2*root+1)+1) default)
            = true
      · rw [if_pos hsel]
        obtain ⟨hsel1, hsel2⟩ := hsel
        rw [lessK_true_iff] at hsel2
        have hmin1 : k (l.getD (first+(2*root+1+1)) default)
            ≤ k (l.getD (first+(2*root+1)) default) :=
          le_of_lt ((keyD_eq k l (show first+(2*root+1+1) = first+(2*root+1)+1 from
            by omega)).trans_lt hsel2)
        have hmin2 : 2*root+2 < hi → k (l.getD (first+(2*root+1+1)) default)
            ≤ k (l.getD (first+(2*root+2)) default) := by
          intro h
          exact le_of_eq (keyD_eq k l (by omega))
        by_cases hstop : (!lessK k (l.getD (first+root) default)
            (l.getD (first+(2*root+1+1)) default)) = true
        · rw [if_pos hstop]
          rw [Bool.not_eq_eq_eq_not, Bool.not_true, lessK_false_iff] at hstop
          exact ⟨hbase (2*root+1+1) (Or.inr (by omega)) (by omega) hmin1 hmin2 hstop,
            eqOutside_refl l first (first+hi), fun q h1 h2 => rfl, Or.inl rfl, rfl⟩
        · rw [if_neg hstop]
          rw [Bool.not_eq_true, Bool.not_eq_false', lessK_true_iff] at hstop
          exact hcont (2*root+1+1) (Or.inr (by omega)) (by omega) hmin1 hmin2 hstop
      · rw [if_neg hsel]
        have hmin1 : k (l.getD (first+(2*root+1)) default)
            ≤ k (l.getD (first+(2*root+1)) default) := le_refl _
        have hmin2 : 2*root+2 < hi → k (l.getD (first+(2*root+1)) default)
            ≤ k (l.getD (first+(2*root+2)) default) := by
          intro h
          have hb : ¬ (lessK k (l.getD (first+(2*root+1)) default)
              (l.getD (first+(2*root+1)+1) default) = true) := by
            intro hx
            exact hsel ⟨by omega, hx⟩
          rw [Bool.not_eq_true, lessK_false_iff] at hb
          have hx := hb
          rw [keyD_eq k l (show first+(2*root+1)+1 = first+(2*root+2) from by omega)] at hx
          exact hx
        by_cases hstop : (!lessK k (l.getD (first+root) default)
            (l.getD (first+(2*root+1)) default)) = true
        · rw [if_pos hstop]
          rw [Bool.not_eq_eq_eq_not, Bool.not_true, lessK_false_iff] at hstop
          exact ⟨hbase (2*root+1) (Or.inl rfl) (by omega) hmin1 hmin2 hstop,
            eqOutside_refl l first (first+hi), fun q h1 h2 => rfl, Or.inl rfl, rfl⟩
        · rw [if_neg hstop]
          rw [Bool.not_eq_true, Bool.not_eq_false', lessK_true_iff] at hstop
          exact hcont (2*root+1) (Or.inl rfl) (by omega) hmin1 hmin2 hstop

/-- The root of a heap whose parent links all hold carries the least
key of the heap. -/
theorem heapRootMin (k : α → Int) (l : List α) (first n : Nat)
    (hp : HeapParents k l first n 0) :
    ∀ q, q < n → k (l.getD first default) ≤ k (l.getD (first+q) default) := by
  intro q
  induction q using Nat.strong_induction_on with
  | _ q ih =>
    intro hq
    by_cases h0 : q = 0
    · rw [h0]
      exact le_of_eq (keyD_eq k l (by omega))
    · have hpar := hp q (by omega) hq (Nat.zero_le _)
      have hih := ih ((q-1)/2) (by omega) (by omega)
      exact le_trans hih hpar

/-- The build loop of heapSort establishes all parent links. -/
theorem heapBuild_spec (k : α → Int) (first hi : Nat) :
    ∀ (f : Nat) (l : List α) (i : Nat), f = i + 1 → first + hi ≤ l.length →
      HeapParents k l first hi (i+1) →
      HeapParents k (heapBuild (lessK k) first hi f l i) first hi 0
      ∧ EqOutside l (heapBuild (lessK k) first hi f l i) first (first+hi)
      ∧ (heapBuild (lessK k) first hi f l i).length = l.length := by
  intro f
  induction f with
  | zero =>
    intro l i hf hlen hpre
    exact absurd hf (by omega)
  | succ f ih =>
    intro l i hf hlen hpre
    rw [heapBuild]
    obtain ⟨sHp, sCF, sFF, sRV, sLen⟩ := siftDown_spec k first hi hi l i (by omega) hlen hpre
    by_cases hi0 : i = 0
    · rw [hi0]
      rw [show f = 0 from by omega]
      rw [heapBuild]
      rw [hi0] at sHp sCF sLen
      exact ⟨sHp, sCF, sLen⟩
    · have hpre2 : HeapParents k (siftDown (lessK k) first hi hi l i) first hi (i-1+1) := by
        rw [show i-1+1 = i from by omega]
        exact sHp
      obtain ⟨tHp, tCF, tLen⟩ := ih (siftDown (lessK k) first hi hi l i) (i-1)
        (by omega) (by omega) hpre2
      exact ⟨tHp, eqOutside_trans sCF tCF, by omega⟩

/-- The pop loop of heapSort: given the parent links on [0, i+1), a
sorted tail from i+1 and every tail key at most every heap key, it
sorts the whole range. -/
theorem heapPop_spec (k : α → Int) (first hi : Nat) :
    ∀ (f : Nat) (l : List α) (i : Nat), f = i + 1 → i < hi → first + hi ≤ l.length →
      HeapParents k l first (i+1) 0 →
      RangeSorted k l (first+(i+1)) (first+hi) →
      (∀ p q, i+1 ≤ p → p < hi → q < i+1 →
        k (l.getD (first+p) default) ≤ k (l.getD (first+q) default)) →
      RangeSorted k (heapPop (lessK k) first f l i) first (first+hi)
      ∧ EqOutside l (heapPop (lessK k) first f l i) first (first+hi)
      ∧ (heapPop (lessK k) first f l i).length = l.length := by
  intro f
  induction f with
  | zero =>
    intro l i hf
    exact absurd hf (by omega)
  | succ f ih =>
    intro l i hf hihi hlen hheap hsuf hcross
    rw [heapPop]
    have hfl : first < l.length := by omega
    have hil : first + i < l.length := by omega
    have hmin := heapRootMin k l first (i+1) hheap
    by_cases hi0 : i = 0
    · rw [hi0]
      rw [show f = 0 from by omega]
      rw [heapPop]
      simp only [Nat.add_zero]
      rw [show siftDown (lessK k) first 0 0 (lswap l first first) 0 = lswap l first first
        from rfl]
      have hAll : ∀ p, (lswap l first first).getD p default = l.getD p default := by
        intro p
        by_cases hp : p = first
        · rw [hp]
          exact lswap_getD_left l hfl hfl
        · exact lswap_getD_other l hp hp
      refine ⟨?_, fun p hp => hAll p, lswap_length l first first⟩
      intro x y hx hxy hy
      rw [hAll x, hAll y]
      by_cases hxf : x = first
      · rw [hxf]
        have hc := hcross (y - first) 0 (by omega) (by omega) (by omega)
        rw [keyD_eq k l (show first+(y-first) = y from by omega),
          keyD_eq k l (show first+0 = first from by omega)] at hc
        exact hc
      · exact hsuf x y (by omega) hxy hy
    · set l2 := lswap l first (first+i) with hl2
      have hlen2 : l2.length = l.length := by
        rw [hl2]
        exact lswap_length _ _ _
      have g1 : l2.getD first default = l.getD (first+i) default := by
        rw [hl2]
        exact lswap_getD_left l hfl hil
      have g2 : l2.getD (first+i) default = l.getD first default := by
        rw [hl2]
        exact lswap_getD_right l hfl hil
      have gother : ∀ p, p ≠ first → p ≠ first+i → l2.getD p default = l.getD p default := by
        intro p h1 h2
        rw [hl2]
        exact lswap_getD_other l h1 h2
      have hsuf2 : RangeSorted k l2 (first+i) (first+hi) := by
        intro x y hx hxy hy
        by_cases hxi : x = first + i
        · rw [hxi, g2, gother y (by omega) (by omega)]
          have hc := hcross (y - first) 0 (by omega) (by omega) (by omega)
          rw [keyD_eq k l (show first+(y-first) = y from by omega),
            keyD_eq k l (show first+0 = first from by omega)] at hc
          exact hc
        · rw [gother x (by omega) hxi, gother y (by omega) (by omega)]
          exact hsuf x y (by omega) hxy hy
      have hcross2 : ∀ p q, i ≤ p → p < hi → q < i →
          k (l2.getD (first+p) default) ≤ k (l2.getD (first+q) default) := by
        intro p q hp1 hp2 hq
        by_cases hq0 : q = 0
        · rw [hq0]
          rw [keyD_eq k l2 (show first+0 = first from by omega), g1]
          by_cases hpi : p = i
          · rw [hpi, g2]
            exact hmin i (by omega)
          · rw [gother (first+p) (by omega) (by omega)]
            exact hcross p i (by omega) hp2 (by omega)
        · rw [gother (first+q) (by omega) (by omega)]
          by_cases hpi : p = i
          · rw [hpi, g2]
            exact hmin q (by omega)
          · rw [gother (first+p) (by omega) (by omega)]
            exact hcross p q (by omega) hp2 (by omega)
      have hpre2 : HeapParents k l2 first i 1 := by
        intro c hc1 hc2 hc3
        have e1 : l2.getD (first+(c-1)/2) default = l.getD (first+(c-1)/2) default :=
          gother _ (by omega) (by omega)
        have e2 : l2.getD (first+c) default = l.getD (first+c) default :=
          gother _ (by omega) (by omega)
        rw [e1, e2]
        exact hheap c hc1 (by omega) (Nat.zero_le _)
      obtain ⟨sHp, sCF, sFF, sRV, sLen⟩ := siftDown_spec k first i i l2 0
        (by omega) (by omega) hpre2
      have hfix : ∀ p, first + i ≤ p →
          (siftDown (lessK k) first i i l2 0).getD p default = l2.getD p default := by
        intro p hp
        exact sCF p (Or.inr hp)
      have hsuf2' : RangeSorted k (siftDown (lessK k) first i i l2 0)
          (first+i) (first+hi) := by
        intro x y hx hxy hy
        rw [hfix x hx, hfix y (by omega)]
        exact hsuf2 x y hx hxy hy
      have hcross3 : ∀ p q, i ≤ p → p < hi → q < i →
          k ((siftDown (lessK k) first i i l2 0).getD (first+p) default)
            ≤ k ((siftDown (lessK k) first i i l2 0).getD (first+q) default) := by
        intro p q hp1 hp2 hq
        rw [hfix (first+p) (by omega)]
        have hRA : RangeAll k (fun x => k (l2.getD (first+p) default) ≤ x) l2
            first (first+i) := by
          intro idx h1 h2
          have hcr := hcross2 p (idx - first) hp1 hp2 (by omega)
          rw [keyD_eq k l2 (show first+(idx-first) = idx from by omega)] at hcr
          exact hcr
        have hRA3 := rangePreserve (siftDown_perm (lessK k) first i i l2 0) sCF
          (by omega) (by omega) hRA
        exact hRA3 (first+q) (by omega) (by omega)
      have hpre3 : HeapParents k (siftDown (lessK k) first i i l2 0) first (i-1+1) 0 := by
        rw [show i-1+1 = i from by omega]
        exact sHp
      have hsuf3 : RangeSorted k (siftDown (lessK k) first i i l2 0)
          (first+(i-1+1)) (first+hi) := by
        rw [show i-1+1 = i from by omega]
        exact hsuf2'
      have hcross3' : ∀ p q, (i-1)+1 ≤ p → p < hi → q < (i-1)+1 →
          k ((siftDown (lessK k) first i i l2 0).getD (first+p) default)
            ≤ k ((siftDown (lessK k) first i i l2 0).getD (first+q) default) := by
        intro p q h1 h2 h3
        exact hcross3 p q (by omega) h2 (by omega)
      obtain ⟨tS, tCF, tLen⟩ := ih (siftDown (lessK k) first i i l2 0) (i-1)
        (by omega) (by omega) (by omega) hpre3 hsuf3 hcross3'
      refine ⟨tS, ?_, by omega⟩
      have e1 : EqOutside l l2 first (first+hi) := by
        rw [hl2]
        exact lswap_eqOutside l (by omega) (by omega) (by omega) (by omega)
      exact eqOutside_trans e1 (eqOutside_trans (eqOutside_widen sCF (le_refl _) (by omega)) tCF)

/-- heapSort sorts [a, b) in Go order and leaves the rest in place. -/
theorem heapSortGo_spec (k : α → Int) (l : List α) (a b : Nat) (hb : b ≤ l.length) :
    RangeSorted k (heapSortGo (lessK k) l a b) a b
    ∧ EqOutside l (heapSortGo (lessK k) l a b) a b
    ∧ (heapSortGo (lessK k) l a b).length = l.length := by
  unfold heapSortGo
  simp only []
  by_cases h0 : b - a = 0
  · rw [h0]
    exact ⟨rangeSorted_trivial k _ (by omega), fun p hp => rfl, rfl⟩
  · obtain ⟨bHp, bCF, bLen⟩ := heapBuild_spec k a (b-a) ((b-a-1)/2+1) l ((b-a-1)/2)
      rfl (by omega) (by intro c hc1 hc2 hc3; exact absurd hc3 (by omega))
    have hpreHp : HeapParents k (heapBuild (lessK k) a (b-a) ((b-a-1)/2+1) l ((b-a-1)/2))
        a ((b-a-1)+1) 0 := by
      rw [show (b-a-1)+1 = b-a from by omega]
      exact bHp
    obtain ⟨pS, pCF, pLen⟩ := heapPop_spec k a (b-a) (b-a)
      (heapBuild (lessK k) a (b-a) ((b-a-1)/2+1) l ((b-a-1)/2)) (b-a-1)
      (by omega) (by omega) (by omega) hpreHp
      (rangeSorted_trivial k _ (by omega))
      (by intro p q h1 h2 h3; exact absurd h2 (by omega))
    have hab : a + (b-a) = b := by omega
    rw [hab] at pS pCF
    rw [hab] at bCF
    exact ⟨pS, eqOutside_trans bCF pCF, by omega⟩

/-- The embedded Go quickSort sorts [a, b) in Go order (keys
descending), touching nothing outside [a, b), at every depth budget. -/
theorem goQuickSort_sorted (k : α → Int) :
    ∀ (d : Nat) (l : List α) (a b : Nat), b ≤ l.length →
      RangeSorted k (goQuickSort (lessK k) d l a b) a b
      ∧ EqOutside l (goQuickSort (lessK k) d l a b) a b
      ∧ (goQuickSort (lessK k) d l a b).length = l.length := by
  intro d
  induction d with
  | zero =>
    intro l a b hb
    rw [goQuickSort]
    split
    · exact heapSortGo_spec k l a b hb
    · exact smallSortGo_spec k l a b hb
  | succ d ih =>
    intro l a b hb
    rw [goQuickSort]
    split
    · rename_i hgt
      rcases hdp : doPivot (lessK k) l a b with ⟨l1, mlo, mhi⟩
      obtain ⟨hm1, hm2, hm3, hRleft, hRmid, hRright, hFr, hLen⟩ :=
        doPivot_spec k l a b hb (by omega) hdp
      set pv := k (l1.getD mlo default) with hpv
      simp only []
      have hassemble : ∀ (L : List α),
          RangeAll k (fun x => pv ≤ x) L a mlo →
          RangeAll k (fun x => x = pv) L mlo mhi →
          RangeAll k (fun x => x ≤ pv) L mhi b →
          RangeSorted k L a mlo → RangeSorted k L mhi b →
          RangeSorted k L a b := by
        intro L hL hM hR hS1 hS2
        have hMS : RangeSorted k L mlo mhi := by
          intro x y hx hxy hy
          have h1 := hM x hx (by omega)
          have h2 := hM y (by omega) hy
          simp only [] at h1 h2
          omega
        have hS12 : RangeSorted k L a mhi := by
          refine rangeSorted_glue hS1 hMS ?_
          intro x y hx hxm hym hy
          have h1 := hL x hx hxm
          have h2 := hM y hym hy
          simp only [] at h1 h2
          omega
        refine rangeSorted_glue hS12 hS2 ?_
        intro x y hx hxm hym hy
        have h2 := hR y hym hy
        simp only [] at h2
        by_cases hxlo : x < mlo
        · have h1 := hL x hx hxlo
          simp only [] at h1
          omega
        · have h1 := hM x (by omega) hxm
          simp only [] at h1
          omega
      split
      · rename_i hlt
        obtain ⟨s1S, s1F, s1L⟩ := ih l1 a mlo (by omega)
        obtain ⟨s2S, s2F, s2L⟩ := ih (goQuickSort (lessK k) d l1 a mlo) mhi b (by omega)
        have hleft2 := rangePreserve (goQuickSort_perm (lessK k) d l1 a mlo) s1F
          (by omega) (by omega) hRleft
        have hleft3 := rangeAll_of_eqOutside s2F (Or.inl (by omega)) hleft2
        have hmid2 := rangeAll_of_eqOutside s1F (Or.inr (le_refl _)) hRmid
        have hmid3 := rangeAll_of_eqOutside s2F (Or.inl (le_refl _)) hmid2
        have hright2 := rangeAll_of_eqOutside s1F (Or.inr (by omega)) hRright
        have hright3 := rangePreserve (goQuickSort_perm (lessK k) d _ mhi b) s2F
          (by omega) (by omega) hright2
        have hs1' := rangeSorted_of_eqOutside s2F (Or.inl (by omega)) s1S
        refine ⟨hassemble _ hleft3 hmid3 hright3 hs1' s2S, ?_, by omega⟩
        exact eqOutside_trans hFr
          (eqOutside_trans (eqOutside_widen s1F (le_refl _) (by omega))
            (eqOutside_widen s2F (by omega) (le_refl _)))
      · rename_i hge
        obtain ⟨s1S, s1F, s1L⟩ := ih l1 mhi b (by omega)
        obtain ⟨s2S, s2F, s2L⟩ := ih (goQuickSort (lessK k) d l1 mhi b) a mlo (by omega)
        have hright2 := rangePreserve (goQuickSort_perm (lessK k) d l1 mhi b) s1F
          (by omega) (by omega) hRright
        have hright3 := rangeAll_of_eqOutside s2F (Or.inr (by omega)) hright2
        have hmid2 := rangeAll_of_eqOutside s1F (Or.inl (le_refl _)) hRmid
        have hmid3 := rangeAll_of_eqOutside s2F (Or.inr (le_refl _)) hmid2
        have hleft2 := rangeAll_of_eqOutside s1F (Or.inl (by omega)) hRleft
        have hleft3 := rangePreserve (goQuickSort_perm (lessK k) d _ a mlo) s2F
          (by omega) (by omega) hleft2
        have hs1' := rangeSorted_of_eqOutside s2F (Or.inr (by omega)) s1S
        refine ⟨hassemble _ hleft3 hmid3 hright3 s2S hs1', ?_, by omega⟩
        exact eqOutside_trans hFr
          (eqOutside_trans (eqOutside_widen s1F (by omega) (le_refl _))
            (eqOutside_widen s2F (le_refl _) (by omega)))
    · exact smallSortGo_spec k l a b hb

/-- sort.Slice sorts the whole list in Go order for a key comparator. -/
theorem goSortSlice_sorted (k : α → Int) (l : List α) :
    RangeSorted k (goSortSlice (lessK k) l) 0 l.length
    ∧ (goSortSlice (lessK k) l).length = l.length := by
  obtain ⟨s, f, len⟩ := goQuickSort_sorted k (maxDepthGo l.length) l 0 l.length (le_refl _)
  exact ⟨s, len⟩

/-- The chain sort of Collect leaves the effective expiries in
descending order. -/
theorem sortChains_sorted (chains : List (List Cert)) :
    RangeSorted chainExpiry (sortChains chains) 0 chains.length
    ∧ (sortChains chains).length = chains.length := by
  have h := goSortSlice_sorted chainExpiry chains
  rw [← chainLess_eq_lessK] at h
  exact h

end SortCorrect

/-!
Lemmas about the deduplication pair uniq and contains.
-/

theorem keyMatch_eq (a c : Cert) :
    ((toString a.serialNumber == toString c.serialNumber) && (a.issuerCN == c.issuerCN))
      = decide (identityKey a = identityKey c) := by
  by_cases h1 : toString a.serialNumber = toString c.serialNumber <;>
    by_cases h2 : a.issuerCN = c.issuerCN <;>
      simp [identityKey, Prod.ext_iff, h1, h2]

theorem contains_eq_any (r : List Cert) (c : Cert) :
    contains r c = r.any (fun p => decide (identityKey p = identityKey c)) := by
  induction r with
  | nil => rfl
  | cons a t ih =>
    simp only [contains, List.any_cons, keyMatch_eq, ih]
    by_cases h : identityKey a = identityKey c <;> simp [h]

theorem uniqLoop_spec : ∀ (cs r pre : List Cert),
    (∀ x, contains r x = pre.any (fun p => decide (identityKey p = identityKey x))) →
    uniqLoop r cs = r ++ specDedupAux pre cs := by
  intro cs
  induction cs with
  | nil =>
    intro r pre _
    simp [uniqLoop, specDedupAux]
  | cons c cs ih =>
    intro r pre h
    simp only [uniqLoop, specDedupAux]
    rw [h c]
    by_cases hc : pre.any (fun p => decide (identityKey p = identityKey c)) = true
    · rw [if_pos hc, if_pos hc]
      apply ih r (pre ++ [c])
      intro x
      rw [h x]
      simp only [List.any_append, List.any_cons, List.any_nil, Bool.or_false]
      by_cases hk : identityKey c = identityKey x
      · have hx : pre.any (fun p => decide (identityKey p = identityKey x)) = true := by
          rcases List.any_eq_true.mp hc with ⟨p, hp, hdp⟩
          refine List.any_eq_true.mpr ⟨p, hp, ?_⟩
          simp only [decide_eq_true_eq] at hdp ⊢
          rw [hdp]
          exact hk
        simp [hx]
      · simp [hk]
    · rw [if_neg hc, if_neg hc]
      rw [ih (r ++ [c]) (pre ++ [c]) ?_]
      · simp
      · intro x
        rw [contains_eq_any, List.any_append, ← contains_eq_any, h x]
        simp [List.any_append]

theorem uniq_eq_specDedup (xs : List Cert) : uniq xs = specDedup xs := by
  have h := uniqLoop_spec xs [] [] (by intro x; rfl)
  simpa [uniq, specDedup] using h

/-- No two members of the list share an Identity Key. -/
def NoDupKeys (l : List Cert) : Prop :=
  l.Pairwise (fun a b => identityKey a ≠ identityKey b)

theorem uniqLoop_nodup : ∀ (cs r : List Cert), NoDupKeys r → NoDupKeys (uniqLoop r cs) := by
  intro cs
  induction cs with
  | nil => intro r h; exact h
  | cons c cs ih =>
    intro r h
    simp only [uniqLoop]
    split
    · exact ih r h
    · rename_i hc
      apply ih
      rw [NoDupKeys, List.pairwise_append]
      refine ⟨h, by simp, ?_⟩
      intro a ha b hb
      simp only [List.mem_singleton] at hb
      intro hk
      have hfalse : contains r c = true := by
        rw [contains_eq_any]
        refine List.any_eq_true.mpr ⟨a, ha, ?_⟩
        simp only [decide_eq_true_eq]
        rw [hk, hb]
      simp [hfalse] at hc

theorem uniqLoop_fixed : ∀ (ys r : List Cert), NoDupKeys ys →
    (∀ y ∈ ys, contains r y = false) → uniqLoop r ys = r ++ ys := by
  intro ys
  induction ys with
  | nil => intro r _ _; simp [uniqLoop]
  | cons c t ih =>
    intro r hnd hall
    simp only [uniqLoop]
    rw [if_neg (by simp [hall c (List.mem_cons_self c t)])]
    rw [ih (r ++ [c]) (List.Pairwise.sublist (List.sublist_cons_self c t) hnd) ?_]
    · simp
    · intro y hy
      rw [contains_eq_any, List.any_append, ← contains_eq_any,
        hall y (List.mem_cons_of_mem c hy)]
      have hkey : ¬ identityKey c = identityKey y :=
        (List.pairwise_cons.mp hnd).1 y hy
      simp [hkey]

theorem uniq_nodup (xs : List Cert) : NoDupKeys (uniq xs) :=
  uniqLoop_nodup xs [] List.Pairwise.nil

theorem uniq_fixed_of_nodup (ys : List Cert) (h : NoDupKeys ys) : uniq ys = ys := by
  have := uniqLoop_fixed ys [] h (by intro y _; rfl)
  simpa [uniq] using this

/-!
Lemmas about the label join strings.
-/

/-- Tail of a separator-led join: a comma before each element. -/
def sepJoinTail : List String → String
  | [] => ""
  | x :: xs => "," ++ x ++ sepJoinTail xs

/-- Tail of a separator-trailed join: a comma after each element. -/
def wrapTail : List String → String
  | [] => ""
  | x :: xs => x ++ "," ++ wrapTail xs

theorem foldl_sep_eq : ∀ (rest : List String) (s : String),
    rest.foldl (fun acc x => acc ++ "," ++ x) s = s ++ sepJoinTail rest := by
  intro rest
  induction rest with
  | nil => intro s; simp [sepJoinTail]
  | cons x xs ih =>
    intro s
    simp only [List.foldl_cons]
    rw [ih]
    simp [sepJoinTail, String.append_assoc]

theorem foldl_wrap_eq : ∀ (l : List String) (s : String),
    l.foldl (fun acc ip => acc ++ ip ++ ",") s = s ++ wrapTail l := by
  intro l
  induction l with
  | nil => intro s; simp [wrapTail]
  | cons x xs ih =>
    intro s
    simp only [List.foldl_cons]
    rw [ih]
    simp [wrapTail, String.append_assoc]

theorem delimJoin_cons_eq : ∀ (t : List String) (a : String),
    delimJoin (a :: t) = a ++ sepJoinTail t := by
  intro t
  induction t with
  | nil => intro a; simp [delimJoin, sepJoinTail]
  | cons b t' ih =>
    intro a
    simp only [delimJoin, sepJoinTail, ih, String.append_assoc]

theorem goJoin_eq_delimJoin (a : String) (rest : List String) :
    goJoin (a :: rest) "," = delimJoin (a :: rest) := by
  simp only [goJoin, foldl_sep_eq, delimJoin_cons_eq]

theorem wrapTail_eq_delimJoin : ∀ (t : List String) (a : String),
    wrapTail (a :: t) = delimJoin (a :: t) ++ "," := by
  intro t
  induction t with
  | nil => intro a; simp [wrapTail, delimJoin]
  | cons b t' ih =>
    intro a
    rw [wrapTail, ih b, delimJoin]
    simp [String.append_assoc]

/-!
Concrete inputs used by the claim theorems.
-/

/-- A single-certificate chain with the given serial number and
not-after time; the other fields are fixed. -/
def mkChain (sn na : Int) : List Cert :=
  [{ serialNumber := sn, issuerCN := "CA", subjectCN := "", dnsNames := [],
     ipAddresses := [], emailAddresses := [], orgUnits := [], notBefore := 0,
     notAfter := na }]

/-- Certificate of the C1 evaluation state. -/
def certC1 : Cert :=
  { serialNumber := 11, issuerCN := "Example CA", subjectCN := "example.com",
    dnsNames := ["example.com"], ipAddresses := [], emailAddresses := [],
    orgUnits := [], notBefore := 62135596801000000000,
    notAfter := 62135596802000000000 }

/-- Connection state of the C1 evaluation: one peer certificate and one
verified chain. -/
def stC1 : ConnectionState := ⟨771, [certC1], [[certC1]]⟩

/-- Connection state with an empty peer chain, for C3. -/
def stC3 : ConnectionState := ⟨771, [], []⟩

/-- Configuration with a tcp module bound to the tcp prober. -/
def confTcp : Config := ⟨[("tcp", ⟨"tcp"⟩)]⟩

/-!
The claims.
-/

/-- C1: the spec states that the per-certificate-in-verified-chain
metrics are named ssl_verified_cert_not_before and
ssl_verified_cert_not_after, with labels chain_no, serial_no,
issuer_cn, cn, dnsnames, ips, emails, ou.  The label schema and the
not-before name hold, but the source misspells the not-after
descriptor name as verfied_cert_not_after (the Go variable is named
verifiedNotAfter and the help text describes the verified chains, so
the spelling is a slip in the code, not an intended name).  This
theorem evaluates the embedded descriptors and the samples Collect
emits on a state with one verified chain: the emitted not-after sample
carries the misspelled name and no sample carries the name the spec
requires. -/
theorem claim_C1_verified_metric_names :
    verifiedNotBeforeName = "ssl_verified_cert_not_before"
  ∧ verifiedNotAfterName = "ssl_verfied_cert_not_after"
  ∧ verifiedNotAfterName ≠ "ssl_verified_cert_not_after"
  ∧ verifiedLabelNames
      = ["chain_no", "serial_no", "issuer_cn", "cn", "dnsnames", "ips", "emails", "ou"]
  ∧ ((collect "tcp" (.ok stC1)).1.filter
      (fun s => s.name == "ssl_verfied_cert_not_after")).length = 1
  ∧ (collect "tcp" (.ok stC1)).1.filter
      (fun s => s.name == "ssl_verified_cert_not_after") = []
  ∧ ((collect "tcp" (.ok stC1)).1.filter
      (fun s => s.name == "ssl_verified_cert_not_before")).length = 1
  ∧ (∀ s ∈ (collect "tcp" (.ok stC1)).1,
      s.name = "ssl_verfied_cert_not_after" → s.labelNames = verifiedLabelNames) := by
  decide

/-- C2 counterexample: the spec states that chains with equal
effective expiry retain their relative input order, but the source
sorts with sort.Slice, whose quickSort is not stable.  On these seven
single-certificate chains the first and sixth chain have equal
effective expiry 30, yet the gap-6 shell pass swaps the first chain
with the last, leaving the two equal-expiry chains in reversed
order. -/
theorem claim_C2_counterexample :
    chainExpiry (mkChain 1 30) = chainExpiry (mkChain 6 30)
  ∧ mkChain 1 30 ≠ mkChain 6 30
  ∧ sortChains
      [mkChain 1 30, mkChain 2 90, mkChain 3 90, mkChain 4 90, mkChain 5 90,
       mkChain 6 30, mkChain 7 100]
      = [mkChain 7 100, mkChain 2 90, mkChain 3 90, mkChain 4 90, mkChain 5 90,
         mkChain 6 30, mkChain 1 30]
  ∧ List.indexOf (mkChain 1 30)
      [mkChain 1 30, mkChain 2 90, mkChain 3 90, mkChain 4 90, mkChain 5 90,
       mkChain 6 30, mkChain 7 100]
    < List.indexOf (mkChain 6 30)
      [mkChain 1 30, mkChain 2 90, mkChain 3 90, mkChain 4 90, mkChain 5 90,
       mkChain 6 30, mkChain 7 100]
  ∧ List.indexOf (mkChain 6 30)
      (sortChains
        [mkChain 1 30, mkChain 2 90, mkChain 3 90, mkChain 4 90, mkChain 5 90,
         mkChain 6 30, mkChain 7 100])
    < List.indexOf (mkChain 1 30)
      (sortChains
        [mkChain 1 30, mkChain 2 90, mkChain 3 90, mkChain 4 90, mkChain 5 90,
         mkChain 6 30, mkChain 7 100]) := by
  decide

/-- C2 amended: chain ranking is not stable on ties; there are inputs
on which two chains with equal effective expiry leave the sort in
reversed relative order (seven chains suffice). -/
theorem claim_C2_amended_unstable :
    ∃ inp : List (List Cert), ∃ x y : List Cert,
      x ∈ inp ∧ y ∈ inp ∧ chainExpiry x = chainExpiry y ∧ x ≠ y
      ∧ List.indexOf x inp < List.indexOf y inp
      ∧ List.indexOf y (sortChains inp) < List.indexOf x (sortChains inp) := by
  refine ⟨[mkChain 1 30, mkChain 2 90, mkChain 3 90, mkChain 4 90, mkChain 5 90,
           mkChain 6 30, mkChain 7 100], mkChain 1 30, mkChain 6 30, ?_⟩
  decide

/-- C3 counterexample: the spec states that a successful handshake
with zero peer certificates produces exactly the prober and
tls_connect_success samples, but Collect emits the tls_version_info
sample before it checks the peer chain, so a third sample appears. -/
theorem claim_C3_counterexample :
    (collect "tcp" (.ok stC3)).1.map Sample.name
      = ["ssl_prober", "ssl_tls_version_info", "ssl_tls_connect_success"]
  ∧ (collect "tcp" (.ok stC3)).1.map Sample.name
      ≠ ["ssl_prober", "ssl_tls_connect_success"]
  ∧ "ssl_tls_version_info" ∈ (collect "tcp" (.ok stC3)).1.map Sample.name := by
  decide

/-- C3 amended: on a successful probe whose peer chain is empty the
sample sequence is exactly prober = 1, tls_version_info = 1 and
tls_connect_success = 0, and no certificate timestamp samples are
produced. -/
theorem claim_C3_empty_chain_samples (p : String) (st : ConnectionState)
    (h : st.peerCertificates = []) :
    (collect p (.ok st)).1 = [proberSample p, versionSample st, successSample 0]
  ∧ ∀ s ∈ (collect p (.ok st)).1,
      s.name ≠ notAfterName ∧ s.name ≠ notBeforeName
      ∧ s.name ≠ verifiedNotAfterName ∧ s.name ≠ verifiedNotBeforeName := by
  have heq : (collect p (.ok st)).1
      = [proberSample p, versionSample st, successSample 0] := by
    simp [collect, h]
  refine ⟨heq, ?_⟩
  intro s hs
  rw [heq] at hs
  fin_cases hs
  · exact ⟨(by decide : ("ssl_prober" : String) ≠ notAfterName),
      (by decide : ("ssl_prober" : String) ≠ notBeforeName),
      (by decide : ("ssl_prober" : String) ≠ verifiedNotAfterName),
      (by decide : ("ssl_prober" : String) ≠ verifiedNotBeforeName)⟩
  · exact ⟨(by decide : ("ssl_tls_version_info" : String) ≠ notAfterName),
      (by decide : ("ssl_tls_version_info" : String) ≠ notBeforeName),
      (by decide : ("ssl_tls_version_info" : String) ≠ verifiedNotAfterName),
      (by decide : ("ssl_tls_version_info" : String) ≠ verifiedNotBeforeName)⟩
  · exact ⟨(by decide : ("ssl_tls_connect_success" : String) ≠ notAfterName),
      (by decide : ("ssl_tls_connect_success" : String) ≠ notBeforeName),
      (by decide : ("ssl_tls_connect_success" : String) ≠ verifiedNotAfterName),
      (by decide : ("ssl_tls_connect_success" : String) ≠ verifiedNotBeforeName)⟩

theorem claim_C3_empty_chain_samples_witness :
    (collect "tcp" (.ok stC3)).1
      = [proberSample "tcp", versionSample stC3, successSample 0]
  ∧ ∀ s ∈ (collect "tcp" (.ok stC3)).1,
      s.name ≠ notAfterName ∧ s.name ≠ notBeforeName
      ∧ s.name ≠ verifiedNotAfterName ∧ s.name ≠ verifiedNotBeforeName :=
  claim_C3_empty_chain_samples "tcp" stC3 rfl

/-- C4 counterexample: the spec states every request error is answered
with a 4xx status, but a malformed X-Prometheus-Scrape-Timeout-Seconds
header is answered with http.StatusInternalServerError, 500. -/
theorem claim_C4_counterexample :
    respStatus (probeHandler confTcp ["tcp"] ⟨"", "example.com:443", "abc"⟩) = 500
  ∧ ¬ Is4xx (respStatus (probeHandler confTcp ["tcp"] ⟨"", "example.com:443", "abc"⟩)) := by
  decide

/-- C4 amended: an unknown module name, a missing target parameter and
an unknown prober name are each answered with status 400 and a
message, a malformed timeout header is answered with status 500 and a
message, and in every such case the handler returns before building
the Exporter, so the derivation engine is not invoked. -/
theorem claim_C4_request_errors (conf : Config) (keys : List String) (r : Request) :
    (conf.modules.lookup (moduleNameOf r) = none →
       probeHandler conf keys r
         = .error ⟨400, "Unknown module " ++ goQuote (moduleNameOf r)⟩)
  ∧ (∀ m : Module, conf.modules.lookup (moduleNameOf r) = some m →
       r.timeoutHeader ≠ "" → parseGoFloat r.timeoutHeader = none →
       probeHandler conf keys r
         = .error ⟨500, "Failed to parse timeout from Prometheus header: "
             ++ parseFloatErrText r.timeoutHeader⟩)
  ∧ (∀ (m : Module) (d : Dec), conf.modules.lookup (moduleNameOf r) = some m →
       (r.timeoutHeader = "" ∨ parseGoFloat r.timeoutHeader = some d) →
       r.targetParam = "" →
       probeHandler conf keys r = .error ⟨400, "Target parameter is missing"⟩)
  ∧ (∀ (m : Module) (d : Dec), conf.modules.lookup (moduleNameOf r) = some m →
       (r.timeoutHeader = "" ∨ parseGoFloat r.timeoutHeader = some d) →
       r.targetParam ≠ "" → keys.contains m.prober = false →
       probeHandler conf keys r
         = .error ⟨400, "Unknown prober " ++ goQuote m.prober⟩) := by
  refine ⟨?_, ?_, ?_, ?_⟩
  · intro hm
    simp [probeHandler, hm]
  · intro m hm hne hparse
    rw [probeHandler]
    simp only [hm]
    simp [hne, hparse]
  · intro m d hm hheader htarget
    rw [probeHandler]
    simp only [hm]
    rcases hheader with hh | hh
    · simp [hh, htarget]
    · by_cases he : r.timeoutHeader = ""
      · simp [he, htarget]
      · simp [he, hh, htarget]
  · intro m d hm hheader htarget hprober
    have hnm : m.prober ∉ keys := by simpa using hprober
    rw [probeHandler]
    simp only [hm]
    rcases hheader with hh | hh
    · simp [hh, htarget, hprober, hnm]
    · by_cases he : r.timeoutHeader = ""
      · simp [he, htarget, hprober, hnm]
      · simp [he, hh, htarget, hprober, hnm]

theorem claim_C4_request_errors_witness :
    probeHandler confTcp ["tcp"] ⟨"nope", "t", ""⟩
      = .error ⟨400, "Unknown module " ++ goQuote "nope"⟩
  ∧ probeHandler confTcp ["tcp"] ⟨"", "example.com:443", "abc"⟩
      = .error ⟨500, "Failed to parse timeout from Prometheus header: "
          ++ parseFloatErrText "abc"⟩
  ∧ probeHandler confTcp ["tcp"] ⟨"", "", ""⟩
      = .error ⟨400, "Target parameter is missing"⟩
  ∧ probeHandler (⟨[("tcp", ⟨"weird"⟩)]⟩ : Config) ["tcp"] ⟨"", "t", ""⟩
      = .error ⟨400, "Unknown prober " ++ goQuote "weird"⟩ := by
  refine ⟨?_, ?_, ?_, ?_⟩
  · exact (claim_C4_request_errors confTcp ["tcp"] ⟨"nope", "t", ""⟩).1 (by decide)
  · exact (claim_C4_request_errors confTcp ["tcp"] ⟨"", "example.com:443", "abc"⟩).2.1
      ⟨"tcp"⟩ (by decide) (by decide) (by decide)
  · exact (claim_C4_request_errors confTcp ["tcp"] ⟨"", "", ""⟩).2.2.1
      ⟨"tcp"⟩ ⟨10, 0⟩ (by decide) (Or.inl rfl) rfl
  · exact (claim_C4_request_errors (⟨[("tcp", ⟨"weird"⟩)]⟩ : Config) ["tcp"]
      ⟨"", "t", ""⟩).2.2.2 ⟨"weird"⟩ ⟨10, 0⟩ (by decide) (Or.inl rfl) (by decide) (by decide)

/-- C5 counterexample: the spec states that a chain in which no
certificate has a non-zero not-after is output after every chain with
a non-zero effective expiry.  A certificate whose not-after lies
before the Go zero time has a negative, non-zero effective expiry,
and the comparator places the unset-expiry chain before it, not
after. -/
theorem claim_C5_counterexample :
    chainExpiry (mkChain 8 (-5)) ≠ 0
  ∧ chainExpiry (mkChain 9 0) = 0
  ∧ sortChains [mkChain 8 (-5), mkChain 9 0] = [mkChain 9 0, mkChain 8 (-5)] := by
  decide

/-- C5 amended: the chain ranking of Collect, the sort.Slice call on
the verified chains, outputs a permutation of its input ordered by
effective expiry descending: a chain with strictly later effective
expiry precedes a chain with earlier effective expiry, and a chain
with unset (zero) effective expiry comes after every chain whose
effective expiry is later than the zero time. -/
theorem claim_C5_ranking (chains : List (List Cert)) :
    List.Perm (sortChains chains) chains
  ∧ (sortChains chains).length = chains.length
  ∧ (∀ i j, i < j → j < (sortChains chains).length →
      chainExpiry ((sortChains chains).getD j [])
        ≤ chainExpiry ((sortChains chains).getD i []))
  ∧ (∀ i j, i < (sortChains chains).length → j < (sortChains chains).length →
      0 < chainExpiry ((sortChains chains).getD i []) →
      chainExpiry ((sortChains chains).getD j []) = 0 → i < j) := by
  obtain ⟨hs, hlen⟩ := sortChains_sorted chains
  have hs' : ∀ i j, i < j → j < (sortChains chains).length →
      chainExpiry ((sortChains chains).getD j [])
        ≤ chainExpiry ((sortChains chains).getD i []) := by
    intro i j hij hj
    exact hs i j (Nat.zero_le _) hij (by omega)
  refine ⟨sortChains_perm chains, hlen, hs', ?_⟩
  intro i j hi hj hpos hzero
  by_contra hnot
  have hji : j ≤ i := by omega
  by_cases hed : j = i
  · rw [hed] at hzero
    rw [hzero] at hpos
    exact lt_irrefl 0 hpos
  · have h := hs' j i (by omega) hi
    rw [hzero] at h
    omega

theorem claim_C5_ranking_witness :
    chainExpiry ((sortChains [mkChain 9 0, mkChain 8 5]).getD 1 [])
      ≤ chainExpiry ((sortChains [mkChain 9 0, mkChain 8 5]).getD 0 [])
  ∧ 0 < 1 ∧ 1 < (sortChains [mkChain 9 0, mkChain 8 5]).length :=
  ⟨(claim_C5_ranking [mkChain 9 0, mkChain 8 5]).2.2.1 0 1 (by decide) (by decide),
   by decide, by decide⟩

/-- C6: uniq keeps exactly the first occurrence of each distinct
Identity Key (serial number as decimal string paired with issuer
common name), in original input order, dropping every later
certificate whose Identity Key equals an earlier one: uniq coincides
with the dedup function written from the words of the spec. -/
theorem claim_C6_dedup_first_occurrence (xs : List Cert) : uniq xs = specDedup xs :=
  uniq_eq_specDedup xs

/-- C7: deduplication is idempotent. -/
theorem claim_C7_dedup_idempotent (xs : List Cert) : uniq (uniq xs) = uniq xs :=
  uniq_fixed_of_nodup (uniq xs) (uniq_nodup xs)

/-- C8: each of the four name-list labels is the empty string on an
empty name sequence, and otherwise the names joined by the comma
delimiter with the delimiter also prepended and appended; in
particular DNS names a.com and b.com give exactly the string
,a.com,b.com, with the commas. -/
theorem claim_C8_label_join (c : Cert) :
    getDNSNames c
      = (if c.dnsNames = [] then "" else "," ++ delimJoin c.dnsNames ++ ",")
  ∧ getIPAddresses c
      = (if c.ipAddresses = [] then "" else "," ++ delimJoin c.ipAddresses ++ ",")
  ∧ getEmailAddresses c
      = (if c.emailAddresses = [] then "" else "," ++ delimJoin c.emailAddresses ++ ",")
  ∧ getOrganizationalUnits c
      = (if c.orgUnits = [] then "" else "," ++ delimJoin c.orgUnits ++ ",")
  ∧ getDNSNames
      { serialNumber := 1, issuerCN := "", subjectCN := "",
        dnsNames := ["a.com", "b.com"], ipAddresses := [], emailAddresses := [],
        orgUnits := [], notBefore := 0, notAfter := 0 } = ",a.com,b.com," := by
  refine ⟨?_, ?_, ?_, ?_, by decide⟩
  · cases h : c.dnsNames with
    | nil => simp [getDNSNames, h]
    | cons a t => simp [getDNSNames, h, goJoin_eq_delimJoin]
  · cases h : c.ipAddresses with
    | nil => simp [getIPAddresses, h]
    | cons a t =>
      simp only [getIPAddresses, h]
      rw [foldl_wrap_eq, wrapTail_eq_delimJoin]
      simp [String.append_assoc]
  · cases h : c.emailAddresses with
    | nil => simp [getEmailAddresses, h]
    | cons a t => simp [getEmailAddresses, h, goJoin_eq_delimJoin]
  · cases h : c.orgUnits with
    | nil => simp [getOrganizationalUnits, h]
    | cons a t => simp [getOrganizationalUnits, h, goJoin_eq_delimJoin]

/-- C9: on a successful probe with at least one peer certificate,
Collect leaves the connection state with its verifiedChains field
permuted into the ranked order used for the chain_no labels (the
sort.Slice call operates on the backing array of
state.VerifiedChains), and leaves the peerCertificates field, and
therefore every certificate in it, unchanged. -/
theorem claim_C9_collect_state (p : String) (st : ConnectionState)
    (h : st.peerCertificates ≠ []) :
    (collect p (.ok st)).2 = .ok { st with verifiedChains := sortChains st.verifiedChains }
  ∧ List.Perm (sortChains st.verifiedChains) st.verifiedChains
  ∧ ({ st with verifiedChains := sortChains st.verifiedChains }
      : ConnectionState).peerCertificates = st.peerCertificates := by
  refine ⟨?_, sortChains_perm _, rfl⟩
  have hlen : ¬ st.peerCertificates.length < 1 := by
    cases hc : st.peerCertificates with
    | nil => exact absurd hc h
    | cons a t => simp [hc]
  simp [collect, hlen]

theorem claim_C9_collect_state_witness :
    (collect "tcp" (.ok stC1)).2
      = .ok { stC1 with verifiedChains := sortChains stC1.verifiedChains }
  ∧ List.Perm (sortChains stC1.verifiedChains) stC1.verifiedChains
  ∧ ({ stC1 with verifiedChains := sortChains stC1.verifiedChains }
      : ConnectionState).peerCertificates = stC1.peerCertificates :=
  claim_C9_collect_state "tcp" stC1 (by decide)

/-- C10: when the timeout header is present and parses to a non-zero
value v, the handler uses time.Duration(v * 1e9), the exact product
truncated toward zero to nanoseconds (equal to v * 1e9 exactly
whenever v is integral), with no rejection of negative values; the 10
second default applies exactly when the header is absent or v is
zero. -/
theorem claim_C10_timeout (conf : Config) (keys : List String) (r : Request)
    (m : Module) (d : Dec)
    (hm : conf.modules.lookup (moduleNameOf r) = some m)
    (ht : r.targetParam ≠ "")
    (hp : keys.contains m.prober = true) :
    (r.timeoutHeader ≠ "" → parseGoFloat r.timeoutHeader = some d → d.mantissa ≠ 0 →
       probeHandler conf keys r
         = .ok ⟨r.targetParam, m.prober, durationOfSeconds d, m⟩)
  ∧ (r.timeoutHeader = "" →
       probeHandler conf keys r
         = .ok ⟨r.targetParam, m.prober, 10000000000, m⟩)
  ∧ (r.timeoutHeader ≠ "" → parseGoFloat r.timeoutHeader = some d → d.mantissa = 0 →
       probeHandler conf keys r
         = .ok ⟨r.targetParam, m.prober, 10000000000, m⟩)
  ∧ (∀ dd : Dec, dd.fracDigits = 0 →
       durationOfSeconds dd = dd.mantissa * 1000000000) := by
  have hmem : m.prober ∈ keys := by simpa using hp
  refine ⟨?_, ?_, ?_, ?_⟩
  · intro hne hparse hnz
    rw [probeHandler]
    simp only [hm]
    simp [hne, hparse, hnz, ht, hmem]
  · intro hempty
    rw [probeHandler]
    simp only [hm]
    simp [hempty, ht, hmem, durationOfSeconds]
  · intro hne hparse hz
    rw [probeHandler]
    simp only [hm]
    simp [hne, hparse, hz, ht, hmem, durationOfSeconds]
  · intro dd hf
    simp [durationOfSeconds, hf, Int.tdiv_one]

theorem claim_C10_timeout_witness :
    probeHandler confTcp ["tcp"] ⟨"", "t", "-5"⟩
      = .ok ⟨"t", "tcp", durationOfSeconds ⟨-5, 0⟩, ⟨"tcp"⟩⟩
  ∧ durationOfSeconds ⟨-5, 0⟩ = -5000000000
  ∧ probeHandler confTcp ["tcp"] ⟨"", "t", ""⟩
      = .ok ⟨"t", "tcp", 10000000000, ⟨"tcp"⟩⟩
  ∧ probeHandler confTcp ["tcp"] ⟨"", "t", "0.00"⟩
      = .ok ⟨"t", "tcp", 10000000000, ⟨"tcp"⟩⟩ := by
  refine ⟨?_, by decide, ?_, ?_⟩
  · exact (claim_C10_timeout confTcp ["tcp"] ⟨"", "t", "-5"⟩ ⟨"tcp"⟩ ⟨-5, 0⟩
      (by decide) (by decide) (by decide)).1 (by decide) (by decide) (by decide)
  · exact (claim_C10_timeout confTcp ["tcp"] ⟨"", "t", ""⟩ ⟨"tcp"⟩ ⟨10, 0⟩
      (by decide) (by decide) (by decide)).2.1 rfl
  · exact (claim_C10_timeout confTcp ["tcp"] ⟨"", "t", "0.00"⟩ ⟨"tcp"⟩ ⟨0, 2⟩
      (by decide) (by decide) (by decide)).2.2.1 (by decide) (by decide) rfl

end SSLExporter
